import Mathlib

/-!
Verification development for the songwalker-library conversion pipeline
(`scripts/convert-webaudiofontdata.mjs` — the Converter — and
`scripts/generate-index.js` — the Indexer).

Both scripts are synchronous, single-threaded batch programs, so they are
embedded as pure Lean functions.  Conventions of the embedding:

* JavaScript numbers occurring in the data are modelled as `Int` (the input
  descriptors carry integer pitch/key/loop fields); `Math.floor(a / b)` for a
  positive literal divisor is `Int.fdiv`, and the JS remainder `a % b`
  (truncated, sign of the dividend) is `Int.tmod`.
* An absent JSON field is `none`.  The JS `x ?? d` (nullish coalescing) is
  `jsNullish`; `x || d` on numbers treats `0` as falsy (`jsOrInt`) and on
  strings treats `""` as falsy (`jsOrStr`).
* A zone's audio payload (`zone.file` / `zone.sample`) is modelled as the
  decoded byte list of the base64 string: `none` when the field is absent or
  the string is empty (falsy), `some bytes` otherwise.  The 16-hex-character
  truncated SHA-256 used as the dedup key is idealized as the byte content
  itself (equal bytes give the equal key; the idealization is collision-free).
* Filesystem paths are lists of components; `FPath.join` is list append, with
  empty components dropped (as `path.join` does).  Filesystem effects are
  reified as an ordered event list (`mkdirSync` and `writeFileSync` events).
-/

/-- JS `x ?? d`: default only when the field is absent (nullish). -/
def jsNullish (x : Option Int) (d : Int) : Int := x.getD d

/-- JS `x || d` on a number field: absent and `0` are falsy. -/
def jsOrInt (x : Option Int) (d : Int) : Int :=
  match x with
  | none => d
  | some v => if v = 0 then d else v

/-- JS `x || d` on a string field: absent and `""` are falsy. -/
def jsOrStr (x : Option String) (d : String) : String :=
  match x with
  | none => d
  | some v => if v = "" then d else v

/-- Decoded audio payload bytes. -/
abbrev Bytes := List Nat

/-- A filesystem path as a list of components. -/
abbrev FPath := List String

/-- `path.join` drops empty segments. -/
def pjoin (base : FPath) (segs : List String) : FPath :=
  base ++ segs.filter (fun s => s ≠ "")

/-- One input zone of a webaudiofontdata instrument descriptor
(the fields the converter reads). -/
structure InZone where
  file : Option Bytes := none
  sample : Option Bytes := none
  midi : Option Int := none
  originalPitch : Option Int := none
  coarseTune : Option Int := none
  fineTune : Option Int := none
  keyRangeLow : Option Int := none
  keyRangeHigh : Option Int := none
  sampleRate : Option Int := none
  loopStart : Option Int := none
  loopEnd : Option Int := none
  deriving Repr, DecidableEq

/-- A parsed instrument descriptor (`data.zones || []` already applied). -/
structure Instrument where
  zones : List InZone
  deriving Repr, DecidableEq

/-! ## GM category table and note names (verbatim tables from the script) -/

/-- The 128-entry `GM_CATEGORIES` table: 16 families × 8 programs, in the
declaration order of the script. -/
def GM_CATEGORIES : List String :=
  List.replicate 8 "piano" ++ List.replicate 8 "chromatic-percussion" ++
  List.replicate 8 "organ" ++ List.replicate 8 "guitar" ++
  List.replicate 8 "bass" ++ List.replicate 8 "strings" ++
  List.replicate 8 "ensemble" ++ List.replicate 8 "brass" ++
  List.replicate 8 "reed" ++ List.replicate 8 "pipe" ++
  List.replicate 8 "synth-lead" ++ List.replicate 8 "synth-pad" ++
  List.replicate 8 "synth-effects" ++ List.replicate 8 "ethnic" ++
  List.replicate 8 "percussive" ++ List.replicate 8 "sound-effects"

def NOTE_NAMES : List String :=
  ["C", "Db", "D", "Eb", "E", "F", "Gb", "G", "Ab", "A", "Bb", "B"]

/-- `midiToNoteName`: octave = ⌊midi/12⌋ − 1, name from `NOTE_NAMES[midi % 12]`. -/
def midiToNoteName (midi : Int) : String :=
  let octave := Int.fdiv midi 12 - 1
  let note := Int.tmod midi 12
  let nm := NOTE_NAMES.getD note.toNat "undefined"
  s!"{nm}{octave}"

/-! ## Pitch normalization (`normalizePitch`) -/

/-- The re-derivation step of `normalizePitch` from a base-detune value:
`rootNote = Math.max(0, Math.min(127, Math.floor(baseDetune / 100)))`,
`fineTuneCents = baseDetune % 100` (JS truncated remainder). -/
def deriveRoot (baseDetune : Int) : Int × Int :=
  (max 0 (min 127 (Int.fdiv baseDetune 100)), Int.tmod baseDetune 100)

/-- `normalizePitch(zone)`: defaults `originalPitch || 6000`,
`coarseTune || 0`, `fineTune || 0`, then
`baseDetune = originalPitch - 100 * coarseTune - fineTune` and the derivation. -/
def normalizePitch (z : InZone) : Int × Int :=
  let originalPitch := jsOrInt z.originalPitch 6000
  let coarseTune := jsOrInt z.coarseTune 0
  let fineTune := jsOrInt z.fineTune 0
  deriveRoot (originalPitch - 100 * coarseTune - fineTune)

/-! ## Audio extraction (`extractAudio`) -/

/-- The global dedup table: insertion-ordered association list from content
key to the first producer's filename and the occurrence count, together with
the `totalDedupSaved` counter. -/
structure Dedup where
  hashes : List (Bytes × String × Nat) := []
  saved : Nat := 0
  deriving Repr, DecidableEq

def Dedup.lookup (d : Dedup) (k : Bytes) : Option (String × Nat) :=
  (d.hashes.find? (fun e => e.1 = k)).map (fun e => e.2)

/-- `audioHashes.get(hashKey).count++` on the (unique) entry with this key. -/
def Dedup.bump (d : Dedup) (k : Bytes) : Dedup :=
  { d with
    hashes := d.hashes.map (fun e => if e.1 = k then (e.1, e.2.1, e.2.2 + 1) else e),
    saved := d.saved + 1 }

def Dedup.insert (d : Dedup) (k : Bytes) (fname : String) : Dedup :=
  { d with hashes := d.hashes ++ [(k, fname, 1)] }

/-- What `extractAudio` returns to `convertZone` (the dedup key stands in for
the truncated sha256 hex string). -/
structure AudioInfo where
  filename : String
  codec : String
  sha : Bytes
  deriving Repr, DecidableEq

/-- Converter configuration (`--dry-run`, `--limit`, `--output`). -/
structure Cfg where
  dryRun : Bool
  limit : Option Nat
  outDir : FPath
  deriving Repr, DecidableEq

/-- An entry of an index document: a preset summary or (root index only) a
library reference. -/
inductive IdxEntry where
  | presetE (name : Option String) (path : FPath) (category : String)
      (tags : List String) (gmProgram : Option Int)
      (zoneCount : Option Nat) (keyRange : Option (Int × Int))
  | indexE (name : String) (path : FPath) (description : String)
      (presetCount : Nat)
  deriving Repr, DecidableEq

/-- A written library/root index document. -/
structure IndexDoc where
  name : String
  description : String
  entries : List IdxEntry
  deriving Repr, DecidableEq

def IdxEntry.path : IdxEntry → FPath
  | .presetE _ p _ _ _ _ _ => p
  | .indexE _ p _ _ => p

def IdxEntry.tags : IdxEntry → List String
  | .presetE _ _ _ t _ _ _ => t
  | .indexE _ _ _ _ => []

/-- One converted zone of the output preset document. -/
structure OutZone where
  low : Int
  high : Int
  rootNote : Int
  fineTuneCents : Int
  sampleRate : Int
  url : String
  codec : String
  sha : Bytes
  loop : Option (Int × Int)
  deriving Repr, DecidableEq

/-- The written preset document (the fields that vary; `format`, `version`,
`category: "sampler"` and the license note are constants in the script). -/
structure PresetOut where
  name : String
  tags : List String
  gmProgram : Nat
  gmCategory : Option String
  source : String
  variant : Nat
  oneShot : Bool
  zones : List OutZone
  deriving Repr, DecidableEq

/-- File contents written by the converter. -/
inductive FData where
  | audioF (b : Bytes)
  | presetF (p : PresetOut)
  | indexF (d : IndexDoc)
  deriving Repr, DecidableEq

/-- A reified filesystem effect of the converter. -/
inductive FsEvent where
  | mkdirE (p : FPath)
  | writeE (p : FPath) (d : FData)
  deriving Repr, DecidableEq

/-- The paths of the files written in an event list. -/
def writtenPaths (evs : List FsEvent) : List FPath :=
  evs.filterMap (fun e => match e with
    | .writeE p _ => some p
    | .mkdirE _ => none)

/-- `extractAudio(zone, presetDir, zoneIndex, noteName)`.  Returns the audio
info (or `none` when the zone has no payload), the updated dedup table, and
the emitted filesystem events (none under `--dry-run`). -/
def extractAudio (cfg : Cfg) (z : InZone) (presetDir : FPath) (noteName : String)
    (dd : Dedup) : Option AudioInfo × Dedup × List FsEvent :=
  match (match z.file with | some b => some b | none => z.sample) with
  | none => (none, dd, [])
  | some buffer =>
    let isFile := z.file.isSome
    let b0 := buffer.getD 0 256
    let b1 := buffer.getD 1 256
    let b2 := buffer.getD 2 256
    let ce : String × String :=
      if isFile then
        if b0 = 0x49 ∧ b1 = 0x44 ∧ b2 = 0x33 then ("mp3", "mp3")
        else if b0 = 0xFF ∧ b1 &&& 0xE0 = 0xE0 then ("mp3", "mp3")
        else if b0 = 0x4F ∧ b1 = 0x67 ∧ b2 = 0x67 then ("ogg", "ogg")
        else ("wav", "wav")
      else ("raw", "raw")
    let ext := ce.2
    let filename := s!"zone_{noteName}.{ext}"
    let dd1 :=
      match dd.lookup buffer with
      | some _ => dd.bump buffer
      | none => dd.insert buffer filename
    let evs := if cfg.dryRun then [] else [FsEvent.writeE (presetDir ++ [filename]) (.audioF buffer)]
    (some ⟨filename, ce.1, buffer⟩, dd1, evs)

/-! ## Zone conversion (`convertZone`) -/

def convertZone (cfg : Cfg) (z : InZone) (presetDir : FPath)
    (dd : Dedup) : Option OutZone × Dedup × List FsEvent :=
  let p := normalizePitch z
  let noteName := midiToNoteName p.1
  match extractAudio cfg z presetDir noteName dd with
  | (none, dd1, evs) => (none, dd1, evs)
  | (some ai, dd1, evs) =>
    let loop :=
      match z.loopStart, z.loopEnd with
      | some s, some e => if 0 ≤ s ∧ s < e then some (s, e) else none
      | _, _ => none
    (some { low := jsNullish z.keyRangeLow 0
            high := jsNullish z.keyRangeHigh 127
            rootNote := p.1
            fineTuneCents := p.2
            sampleRate := jsOrInt z.sampleRate 44100
            url := ai.filename
            codec := ai.codec
            sha := ai.sha
            loop := loop }, dd1, evs)

/-! ## Name sanitization -/

/-- Character class `[a-zA-Z0-9 ]` (`Char.isAlpha`/`Char.isDigit` are the
ASCII classes matching the regex). -/
def keepNameChar (c : Char) : Bool := c.isAlpha || c.isDigit || c = ' '

/-- `.replace(/\s+/g, '_')` after the filter: collapse each maximal run of
spaces (the only whitespace left) into a single underscore. -/
def collapseSpaces : List Char → List Char
  | [] => []
  | [c] => if c = ' ' then ['_'] else [c]
  | c :: c2 :: rest =>
    if c = ' ' ∧ c2 = ' ' then collapseSpaces (c2 :: rest)
    else (if c = ' ' then '_' else c) :: collapseSpaces (c2 :: rest)

/-- `instrumentName.replace(/[^a-zA-Z0-9 ]/g, '').replace(/\s+/g, '_')`. -/
def safeNameOf (instrumentName : String) : String :=
  String.mk (collapseSpaces (instrumentName.toList.filter keepNameChar))

/-- `libraryName.replace(/[^a-zA-Z0-9]/g, '_')`. -/
def safeLibOf (libraryName : String) : String :=
  String.mk (libraryName.toList.map (fun c => if c.isAlpha || c.isDigit then c else '_'))

/-- `name.split(':')[0].trim()` (`Char.isWhitespace` standing for the JS
whitespace class). -/
def cleanNameOf (name : String) : String :=
  String.mk
    ((((name.toList.takeWhile (fun c => c ≠ ':')).dropWhile Char.isWhitespace).reverse.dropWhile
      Char.isWhitespace).reverse)

/-- `libraryName.replace(/_/g, ' ')`. -/
def underscoresToSpaces (s : String) : String :=
  String.mk (s.toList.map (fun c => if c = '_' then ' ' else c))

/-! ## Instrument conversion (`convertInstrument`) -/

/-- `zones.some(z => z.midi === 128)`. -/
def isPercussionOf (zones : List InZone) : Bool :=
  zones.any (fun z => z.midi = some 128)

/-- `GM_CATEGORIES[gmProgram] || 'unknown'` (for the melodic branch). -/
def categoryOf (isPercussion : Bool) (gmProgram : Nat) : String :=
  if isPercussion then "percussion"
  else jsOrStr (GM_CATEGORIES.get? gmProgram) "unknown"

/-- The output directory of an instrument:
`{out}/{safeLib}/percussion/individual/{safeName}` or
`{out}/{safeLib}/instruments/{category}/{safeName}`. -/
def presetDirOf (outDir : FPath) (isPercussion : Bool) (category safeLib safeName : String) :
    FPath :=
  if isPercussion then pjoin outDir [safeLib, "percussion", "individual", safeName]
  else pjoin outDir [safeLib, "instruments", category, safeName]

/-- The converter's per-instrument catalog entry (what `convertInstrument`
returns to `main`). -/
structure CEntry where
  name : String
  path : FPath
  category : String
  tags : List String
  gmProgram : Nat
  library : String
  zoneCount : Nat
  keyRange : Int × Int
  deriving Repr, DecidableEq

/-- The zone-conversion loop of `convertInstrument`. -/
def convertZonesLoop (cfg : Cfg) (zones : List InZone) (presetDir : FPath)
    (dd : Dedup) : List OutZone × Dedup × List FsEvent :=
  zones.foldl
    (fun acc z =>
      match convertZone cfg z presetDir acc.2.1 with
      | (none, dd1, evs) => (acc.1, dd1, acc.2.2 ++ evs)
      | (some oz, dd1, evs) => (acc.1 ++ [oz], dd1, acc.2.2 ++ evs))
    ([], dd, [])

/-- The tag list built for the preset document. -/
def buildTags (isPercussion : Bool) (category : String) (gmProgram : Nat)
    (convertedZones : List OutZone) : List String :=
  (if isPercussion then ["percussion"] else ["melodic", category]) ++
  [s!"gm:{gmProgram}"] ++
  (if convertedZones.any (fun z => z.loop.isSome) then ["sustained", "looped"]
   else ["one-shot"])

/-- `Math.min(...)` / `Math.max(...)` over the (nonempty) zone list. -/
def zonesKeyRange (zs : List OutZone) : Int × Int :=
  (zs.foldl (fun a z => min a z.low) 127,
   zs.foldl (fun a z => max a z.high) 0)

/-- `convertInstrument(filePath, gmProgram, instrumentName, libraryName,
variant)` on the already-parsed descriptor.  Returns the catalog entry (or
`none` when the instrument is dropped), the updated dedup table and the
emitted filesystem events, in program order. -/
def convertInstrument (cfg : Cfg) (inst : Instrument) (gmProgram : Nat)
    (instrumentName : String) (libraryName : String) (variant : Nat)
    (dd : Dedup) : Option CEntry × Dedup × List FsEvent :=
  let zones := inst.zones
  if zones = [] then (none, dd, [])
  else
    let isPercussion := isPercussionOf zones
    let category := categoryOf isPercussion gmProgram
    let safeName := safeNameOf instrumentName
    let safeLib := safeLibOf libraryName
    let presetDir := presetDirOf cfg.outDir isPercussion category safeLib safeName
    let evs0 : List FsEvent := if cfg.dryRun then [] else [.mkdirE presetDir]
    let r := convertZonesLoop cfg zones presetDir dd
    let convertedZones := r.1
    if convertedZones = [] then (none, r.2.1, evs0 ++ r.2.2)
    else
      let tags := buildTags isPercussion category gmProgram convertedZones
      let preset : PresetOut :=
        { name := instrumentName
          tags := tags
          gmProgram := gmProgram
          gmCategory := if isPercussion then some "Percussion" else GM_CATEGORIES.get? gmProgram
          source := libraryName
          variant := variant
          oneShot := isPercussion
          zones := convertedZones }
      let evs1 : List FsEvent :=
        if cfg.dryRun then []
        else [.writeE (presetDir ++ ["preset.json"]) (.presetF preset)]
      -- presetPath.replace(libraryDir + '/', '') + '/preset.json' with
      -- libraryDir = join(OUTPUT_DIR, safeLib): drop that prefix.
      let relativePath := presetDir.drop (cfg.outDir.length + 1) ++ ["preset.json"]
      let kr := zonesKeyRange convertedZones
      (some { name := instrumentName
              path := relativePath
              category := "sampler"
              tags := tags
              gmProgram := gmProgram
              library := safeLib
              zoneCount := convertedZones.length
              keyRange := kr }, r.2.1, evs0 ++ r.2.2 ++ evs1)

/-! ## Filename parsing (`parseInstrumentFilename`, `parsePercussionFilename`)

The two regexes are
`^(\d{4})_(.+?)(?:_sf2(?:_file)?)?\.json$` and
`^(\d+)_(\d+)_(.+?)(?:_sf2(?:_file)?)?\.json$`.
The lazy group `(.+?)` captures the shortest nonempty prefix `L` of the
remaining text such that what follows `L` is exactly `"_sf2_file.json"`,
`"_sf2.json"` or `".json"`; `.` does not match a JS line terminator, so `L`
cannot extend past the first line terminator. -/

def isLineTerm (c : Char) : Bool :=
  c = '\n' || c = '\r' || c = Char.ofNat 0x2028 || c = Char.ofNat 0x2029

/-- Suffix test on character lists. -/
def endsWithL (suf l : List Char) : Bool :=
  decide (suf.length ≤ l.length) && decide (l.drop (l.length - suf.length) = suf)

/-- The library capture of the lazy group, given the text `core` standing
between the last mandatory `_` and the trailing `".json"`.  Candidate capture
lengths in the engine's (ascending) trial order, each valid when positive and
not reaching past a line terminator. -/
def pickLib (core : List Char) : Option (List Char) :=
  let m := (core.takeWhile (fun c => !(isLineTerm c))).length
  let cands :=
    (if endsWithL "_sf2_file".toList core then [core.length - 9] else []) ++
    (if endsWithL "_sf2".toList core then [core.length - 4] else []) ++
    [core.length]
  ((cands.filter (fun k => 1 ≤ k ∧ k ≤ m)).head?).map (fun k => core.take k)

def digitVal (c : Char) : Nat := c.toNat - 48

structure MelInfo where
  gmProgram : Nat
  variant : Nat
  library : String
  deriving Repr, DecidableEq

/-- `parseInstrumentFilename`: 4-digit code, `_`, lazy library capture,
optional `_sf2`/`_sf2_file` suffix, `.json`;
`gmProgram = Math.floor(code / 10)`, `variant = code % 10`. -/
def parseInstrumentFilename (filename : List Char) : Option MelInfo :=
  match filename with
  | d1 :: d2 :: d3 :: d4 :: u :: rest =>
    if d1.isDigit && d2.isDigit && d3.isDigit && d4.isDigit && u = '_' then
      if endsWithL ".json".toList rest then
        match pickLib (rest.take (rest.length - 5)) with
        | some lib =>
          let code := digitVal d1 * 1000 + digitVal d2 * 100 + digitVal d3 * 10 + digitVal d4
          some ⟨code / 10, code % 10, String.mk lib⟩
        | none => none
      else none
    else none
  | _ => none

structure PercInfo where
  midiNote : Nat
  variant : Nat
  library : String
  deriving Repr, DecidableEq

def digitsVal (ds : List Char) : Nat :=
  ds.foldl (fun a c => a * 10 + digitVal c) 0

/-- `parsePercussionFilename`: a maximal digit run, `_`, a maximal digit run,
`_`, then the same lazy library capture and suffixes. -/
def parsePercussionFilename (filename : List Char) : Option PercInfo :=
  let ds1 := filename.takeWhile Char.isDigit
  let r1 := filename.drop ds1.length
  if ds1 = [] then none
  else
    match r1 with
    | u1 :: r2 =>
      if u1 = '_' then
        let ds2 := r2.takeWhile Char.isDigit
        let r3 := r2.drop ds2.length
        if ds2 = [] then none
        else
          match r3 with
          | u2 :: rest =>
            if u2 = '_' then
              if endsWithL ".json".toList rest then
                match pickLib (rest.take (rest.length - 5)) with
                | some lib => some ⟨digitsVal ds1, digitsVal ds2, String.mk lib⟩
                | none => none
              else none
            else none
          | _ => none
      else none
    | _ => none

/-! ## The converter main pipeline -/

/-- One file of a source directory listing: the filename and the result of
`JSON.parse(readFileSync(...))` (`none` when reading or parsing throws). -/
structure InstrFile where
  fname : List Char
  parsed : Option Instrument
  deriving Repr, DecidableEq

/-- The converter's input: the GM name table (`none` when
`instrumentNames.json` cannot be loaded — fatal), and the `i/` and `p/`
directory listings (`none` when the directory does not exist). -/
structure SourceData where
  names : Option (List String)
  iFiles : Option (List InstrFile)
  pFiles : Option (List InstrFile)
  deriving Repr, DecidableEq

/-- Mutable state of `main`'s conversion loops. -/
structure MainSt where
  dedup : Dedup
  events : List FsEvent
  entriesByLibrary : List (String × List CEntry)
  convertedCount : Nat
  errorCount : Nat
  deriving Repr, DecidableEq

/-- `entriesByLibrary.get(lib).push(entry)` (insertion-ordered map). -/
def pushEntry (m : List (String × List CEntry)) (lib : String) (e : CEntry) :
    List (String × List CEntry) :=
  if m.any (fun g => g.1 = lib) then
    m.map (fun g => if g.1 = lib then (g.1, g.2 ++ [e]) else g)
  else m ++ [(lib, [e])]

/-- `convertedCount >= LIMIT` (LIMIT = Infinity when absent). -/
def atLimit (limit : Option Nat) (c : Nat) : Bool :=
  match limit with
  | none => false
  | some l => l ≤ c

/-- One iteration of the instrument-file (`i/`) loop. -/
def stepI (cfg : Cfg) (names : List String) (st : MainSt) (f : InstrFile) : MainSt :=
  if atLimit cfg.limit st.convertedCount then st
  else
    match parseInstrumentFilename f.fname with
    | none => st
    | some info =>
      if 128 ≤ info.gmProgram then st
      else
        let name := jsOrStr (names.get? info.gmProgram) s!"Program {info.gmProgram}"
        let cleanName := cleanNameOf name
        match f.parsed with
        | none => { st with errorCount := st.errorCount + 1 }
        | some inst =>
          match convertInstrument cfg inst info.gmProgram cleanName info.library
              info.variant st.dedup with
          | (none, dd1, evs) => { st with dedup := dd1, events := st.events ++ evs }
          | (some entry, dd1, evs) =>
            { st with
              dedup := dd1
              events := st.events ++ evs
              entriesByLibrary := pushEntry st.entriesByLibrary entry.library entry
              convertedCount := st.convertedCount + 1 }

/-- One iteration of the percussion-file (`p/`) loop. -/
def stepP (cfg : Cfg) (st : MainSt) (f : InstrFile) : MainSt :=
  if atLimit cfg.limit st.convertedCount then st
  else
    match parsePercussionFilename f.fname with
    | none => st
    | some info =>
      let noteName := midiToNoteName info.midiNote
      let mn := info.midiNote
      let instName := s!"Percussion_{noteName}_{mn}"
      match f.parsed with
      | none => { st with errorCount := st.errorCount + 1 }
      | some inst =>
        match convertInstrument cfg inst 128 instName info.library info.variant
            st.dedup with
        | (none, dd1, evs) => { st with dedup := dd1, events := st.events ++ evs }
        | (some entry, dd1, evs) =>
          -- Override category tags for percussion (index entry only).
          let entry1 := { entry with tags := ["percussion", s!"midi:{mn}"] }
          { st with
            dedup := dd1
            events := st.events ++ evs
            entriesByLibrary := pushEntry st.entriesByLibrary entry1.library entry1
            convertedCount := st.convertedCount + 1 }

/-- Stable insertion of `x` into a sorted list (earlier elements stay before
later equal ones), modelling the stability of `Array.prototype.sort`. -/
def jsInsertBy (le : α → α → Bool) (x : α) : List α → List α
  | [] => [x]
  | y :: ys => if le x y then x :: y :: ys else y :: jsInsertBy le x ys

/-- A stable sort (insertion sort), modelling `Array.prototype.sort`. -/
def jsSortBy (le : α → α → Bool) : List α → List α
  | [] => []
  | x :: xs => jsInsertBy le x (jsSortBy le xs)

/-- The default JS string comparison: lexicographic on code units. -/
def charListLE : List Char → List Char → Bool
  | [], _ => true
  | _ :: _, [] => false
  | a :: as, b :: bs =>
    if a.toNat < b.toNat then true
    else if b.toNat < a.toNat then false
    else charListLE as bs

/-- `.filter(f => f.endsWith('.json')).sort()` on a directory listing
(default JS string sort). -/
def listDirFiles (files : List InstrFile) : List InstrFile :=
  jsSortBy (fun a b => charListLE a.fname b.fname)
    (files.filter (fun f => endsWithL ".json".toList f.fname))

/-- A converter catalog entry, mapped to a library-index entry
(`gmProgram` spread in only when `< 128`). -/
def entryToIdx (e : CEntry) : IdxEntry :=
  .presetE (some e.name) e.path e.category e.tags
    (if e.gmProgram < 128 then some (e.gmProgram : Int) else none)
    (some e.zoneCount) (some e.keyRange)

/-- The per-library index document the converter writes. -/
def convLibraryIndex (libraryName : String) (entries : List CEntry) : IndexDoc :=
  { name := underscoresToSpaces libraryName
    description :=
      s!"{libraryName} soundfont — " ++ toString entries.length ++ " presets"
    entries := entries.map entryToIdx }

/-- The root-index entry the converter appends per library. -/
def convRootEntry (libraryName : String) (entries : List CEntry) : IdxEntry :=
  .indexE (underscoresToSpaces libraryName) [libraryName, "index.json"]
    s!"{libraryName} soundfont" entries.length

/-- The outcome of a converter run. -/
structure ConvOut where
  fatal : Bool
  events : List FsEvent
  dedup : Dedup
  entriesByLibrary : List (String × List CEntry)
  convertedCount : Nat
  errorCount : Nat
  deriving Repr, DecidableEq

/-- The two conversion loops of `main()` (over `i/`, then over `p/`),
starting from the state holding the initial `mkdirSync(OUTPUT_DIR)`. -/
def mainLoopSt (cfg : Cfg) (names : List String) (src : SourceData) : MainSt :=
  let ev0 : List FsEvent := if cfg.dryRun then [] else [.mkdirE cfg.outDir]
  let st0 : MainSt := ⟨{}, ev0, [], 0, 0⟩
  let st1 :=
    match src.iFiles with
    | none => st0
    | some fs => (listDirFiles fs).foldl (stepI cfg names) st0
  match src.pFiles with
  | none => st1
  | some fs => (listDirFiles fs).foldl (stepP cfg) st1

/-- The per-library index write events of `main()`. -/
def libIndexEvs (cfg : Cfg) (st2 : MainSt) : List FsEvent :=
  if cfg.dryRun then []
  else st2.entriesByLibrary.map
    (fun g => .writeE (cfg.outDir ++ [g.1, "index.json"])
      (.indexF (convLibraryIndex g.1 g.2)))

/-- The root index document of the converter. -/
def convRootIndex (st2 : MainSt) : IndexDoc :=
  { name := "SongWalker Library"
    description := "Root index — select a source library to browse its presets"
    entries := st2.entriesByLibrary.map (fun g => convRootEntry g.1 g.2) }

/-- The root index write event of `main()`. -/
def rootIndexEvs (cfg : Cfg) (st2 : MainSt) : List FsEvent :=
  if cfg.dryRun then []
  else [.writeE (cfg.outDir ++ ["index.json"]) (.indexF (convRootIndex st2))]

/-- The whole `main()` of the converter. -/
def runConverter (cfg : Cfg) (src : SourceData) : ConvOut :=
  match src.names with
  | none => ⟨true, [], {}, [], 0, 0⟩  -- process.exit(1) before any write
  | some names =>
    let st2 := mainLoopSt cfg names src
    { fatal := false
      events := st2.events ++ libIndexEvs cfg st2 ++ rootIndexEvs cfg st2
      dedup := st2.dedup
      entriesByLibrary := st2.entriesByLibrary
      convertedCount := st2.convertedCount
      errorCount := st2.errorCount }

/-! ## The indexer (`generate-index.js`) -/

/-- A zone as the indexer reads it from a preset document. -/
structure PZone where
  keyRange : Option (Int × Int)
  deriving Repr, DecidableEq

/-- A playback-graph node (`sampler` with optional `config.zones`,
`composite` with optional `children`, anything else). -/
inductive PNode where
  | sampler (zones : Option (List PZone))
  | composite (children : Option (List PNode))
  | other
  deriving Repr

/-- A preset document as the indexer reads it. -/
structure PresetDoc where
  name : Option String
  category : Option String
  tags : Option (List String)
  gmProgram : Option Int
  node : Option PNode
  graph : Option PNode
  deriving Repr

/-- A file in the library tree: a `preset.json` (with its parse result —
`none` when `JSON.parse` throws), an `index.json` written by the indexer, or
anything else (unparseable as a preset). -/
inductive TFile where
  | pfile (d : Option PresetDoc)
  | ifile (d : IndexDoc)
  | other (tag : Nat)
  deriving Repr

/-- A directory tree: `readdirSync` returns the children in list order. -/
inductive FsTree where
  | fileN (d : TFile)
  | dirN (children : List (String × FsTree))
  deriving Repr

def FsTree.isDir : FsTree → Bool
  | .dirN _ => true
  | .fileN _ => false

mutual
/-- `countZones`: fold `(zoneCount, keyRangeLow, keyRangeHigh)` over every
sampler node in the graph, starting from `(0, 127, 0)`. -/
def countZones (n : PNode) (acc : Nat × Int × Int) : Nat × Int × Int :=
  match n with
  | .sampler zs? =>
    match zs? with
    | some zs =>
      zs.foldl
        (fun a z =>
          match z.keyRange with
          | some kr => (a.1 + 1, min a.2.1 kr.1, max a.2.2 kr.2)
          | none => (a.1 + 1, a.2.1, a.2.2))
        acc
    | none => acc
  | .composite cs? =>
    match cs? with
    | some cs => countZonesList cs acc
    | none => acc
  | .other => acc

def countZonesList (l : List PNode) (acc : Nat × Int × Int) : Nat × Int × Int :=
  match l with
  | [] => acc
  | c :: rest => countZonesList rest (countZones c acc)
end

/-- `buildPresetEntry(presetPath, libraryRoot)` on the parsed document and
the relative path. -/
def buildPresetEntry (d : PresetDoc) (relPath : FPath) : IdxEntry :=
  let z :=
    match (match d.node with | some n => some n | none => d.graph) with
    | some n => countZones n (0, 127, 0)
    | none => (0, 127, 0)
  .presetE d.name relPath (jsOrStr d.category "sampler") (d.tags.getD [])
    (match d.gmProgram with
     | some g => if g < 128 then some g else none
     | none => none)
    (if 0 < z.1 then some z.1 else none)
    (if 0 < z.1 then some (z.2.1, z.2.2) else none)

mutual
/-- `findPresetFiles(dir)`: recursive scan collecting every file literally
named `preset.json`, in `readdirSync` order. -/
def findPresetFilesT (pre : FPath) (t : FsTree) : List FPath :=
  match t with
  | .fileN _ => []
  | .dirN cs => findPresetFilesL pre cs

def findPresetFilesL (pre : FPath) (cs : List (String × FsTree)) : List FPath :=
  match cs with
  | [] => []
  | (n, t) :: rest =>
    (match t with
     | .dirN _ => findPresetFilesT (pre ++ [n]) t
     | .fileN _ => if n = "preset.json" then [pre ++ [n]] else []) ++
    findPresetFilesL pre rest
end

/-- Read a file by path (`none` when the path misses or hits a directory). -/
def getFile (t : FsTree) : FPath → Option TFile
  | [] =>
    match t with
    | .fileN d => some d
    | .dirN _ => none
  | n :: rest =>
    match t with
    | .fileN _ => none
    | .dirN cs =>
      match cs.find? (fun e => e.1 = n) with
      | some e => getFile e.2 rest
      | none => none

/-- `writeFileSync` into the tree: replace the file child of that name in
place, or append a new file child; an existing directory of that name is
left unchanged (Node would throw `EISDIR` there — ruled out by `treeWF`). -/
def setFile (t : FsTree) : FPath → TFile → FsTree
  | [], _ => t
  | [n], f =>
    match t with
    | .fileN d => .fileN d
    | .dirN cs =>
      if cs.any (fun e => e.1 = n) then
        .dirN (cs.map (fun e =>
          if e.1 = n ∧ !e.2.isDir then (e.1, .fileN f) else e))
      else .dirN (cs ++ [(n, .fileN f)])
  | n :: n2 :: rest, f =>
    match t with
    | .fileN d => .fileN d
    | .dirN cs =>
      .dirN (cs.map (fun e =>
        if e.1 = n then (e.1, setFile e.2 (n2 :: rest) f) else e))

def applyWrites (t : FsTree) (ws : List (FPath × IndexDoc)) : FsTree :=
  ws.foldl (fun a w => setFile a w.1 (.ifile w.2)) t

def SKIP_DIRS : List String := [".git", ".husky", "scripts", "node_modules", ".github"]

/-- The sorted top-level library directory names. -/
def topLevelLibs (cs : List (String × FsTree)) : List String :=
  jsSortBy (fun a b => charListLE a.toList b.toList)
    ((cs.filter (fun e => e.2.isDir && !(SKIP_DIRS.contains e.1))).map
      (fun e => e.1))

/-- The (category, name) locale-aware comparison of the sort, as a boolean
`≤` over an arbitrary comparator `cmp` standing for `localeCompare`. -/
def entrySortLE (cmp : String → String → Int) (a b : IdxEntry) : Bool :=
  match a, b with
  | .presetE an _ ac _ _ _ _, .presetE bn _ bc _ _ _ _ =>
    let c := cmp (jsOrStr (some ac) "") (jsOrStr (some bc) "")
    if c ≠ 0 then decide (c ≤ 0)
    else decide (cmp (jsOrStr an "") (jsOrStr bn "") ≤ 0)
  | _, _ => true

/-- One preset file of the per-library scan: parse and summarize, or count
an error. -/
def presetFoldStep (t : FsTree) (acc : List IdxEntry × Nat) (p : FPath) :
    List IdxEntry × Nat :=
  match getFile t p with
  | some (.pfile (some d)) => (acc.1 ++ [buildPresetEntry d p], acc.2)
  | _ => (acc.1, acc.2 + 1)

/-- Per-library processing: found preset files, entries (sorted), errors. -/
def processLib (cmp : String → String → Int) (t : FsTree) :
    List IdxEntry × Nat :=
  let pfs := findPresetFilesT [] t
  let r := pfs.foldl (presetFoldStep t) ([], 0)
  (jsSortBy (entrySortLE cmp) r.1, r.2)

/-- Display name: `_shared` is special-cased to `Built-in`. -/
def displayNameOf (libraryName : String) : String :=
  if libraryName = "_shared" then "Built-in" else underscoresToSpaces libraryName

def idxLibraryDescription (libraryName : String) (n : Nat) : String :=
  if libraryName = "_shared" then
    s!"Built-in oscillator synths and effects — {n} presets"
  else
    (displayNameOf libraryName) ++ s!" soundfont — {n} presets"

def idxRootDescription (libraryName : String) : String :=
  if libraryName = "_shared" then
    "Built-in oscillator synths and effects (no samples)"
  else (displayNameOf libraryName) ++ " soundfont"

/-- One library of the indexer main loop: look the directory up, summarize
it, emit its index write and its root-index entry. -/
def libStep (cmp : String → String → Int) (cs : List (String × FsTree))
    (acc : List (FPath × IndexDoc) × List IdxEntry × Nat) (lib : String) :
    List (FPath × IndexDoc) × List IdxEntry × Nat :=
  match cs.find? (fun e => e.1 = lib) with
  | some e =>
    let pr := processLib cmp e.2
    let doc : IndexDoc :=
      { name := displayNameOf lib
        description := idxLibraryDescription lib pr.1.length
        entries := pr.1 }
    (acc.1 ++ [([lib, "index.json"], doc)],
     acc.2.1 ++ [.indexE (displayNameOf lib) [lib, "index.json"]
       (idxRootDescription lib) pr.1.length],
     acc.2.2 + pr.2)
  | none => acc

/-- The whole `main()` of the indexer: the written `(path, document)` pairs
(per-library indexes in loop order, the root index last) and the total error
count. -/
def indexerRun (cmp : String → String → Int) (root : FsTree) :
    List (FPath × IndexDoc) × Nat :=
  match root with
  | .fileN _ => ([], 0)
  | .dirN cs =>
    let libs := topLevelLibs cs
    let r := libs.foldl (libStep cmp cs) ([], [], 0)
    let rootDoc : IndexDoc :=
      { name := "SongWalker Library"
        description := "Root index — select a source library to browse its presets"
        entries := r.2.1 }
    (r.1 ++ [(["index.json"], rootDoc)], r.2.2)

/-- No directory named `index.json` among these children (Node's
`writeFileSync` would throw `EISDIR`; `setFile` models only successful
writes). -/
def noIndexDir (cs : List (String × FsTree)) : Bool :=
  cs.all (fun e => !(e.1 = "index.json" && e.2.isDir))

mutual
/-- Well-formedness of a real directory tree: child names are distinct at
every level. -/
def nodupNamesT : FsTree → Bool
  | .fileN _ => true
  | .dirN cs => decide ((cs.map (fun e => e.1)).Nodup) && nodupNamesL cs

def nodupNamesL : List (String × FsTree) → Bool
  | [] => true
  | e :: rest => nodupNamesT e.2 && nodupNamesL rest
end

/-- The library root the indexer can run twice on without Node throwing:
a directory with distinct child names everywhere and no directory named
`index.json` at the root or directly inside a library directory. -/
def treeWF : FsTree → Bool
  | .fileN _ => false
  | .dirN cs =>
    nodupNamesT (.dirN cs) && noIndexDir cs &&
    cs.all (fun e =>
      match e.2 with
      | .dirN cs2 => noIndexDir cs2
      | .fileN _ => true)

/-! # Claims -/

/-! ## C6 — pitch normalization idempotent under re-derivation -/

/-- JS `a % 100` in terms of the Euclidean remainder. -/
lemma tmod_hundred_char (a : Int) :
    a.tmod 100 = if 0 ≤ a then a % 100 else -((-a) % 100) := by
  split
  · exact Int.tmod_eq_emod (by assumption) (by norm_num)
  · have h2 : (-a).tmod 100 = (-a) % 100 := Int.tmod_eq_emod (by omega) (by norm_num)
    have h4 := Int.tmod_add_tdiv a 100
    have h5 := Int.tmod_add_tdiv (-a) 100
    have h6 := Int.neg_tdiv a 100
    linarith

lemma deriveRoot_idem (bd : Int) :
    deriveRoot (100 * (deriveRoot bd).1 + (deriveRoot bd).2) = deriveRoot bd := by
  unfold deriveRoot
  simp only [Int.fdiv_eq_ediv _ (by norm_num : (0:Int) ≤ 100), tmod_hundred_char,
    max_def, min_def, Prod.mk.injEq]
  have ha := Int.emod_nonneg bd (by norm_num : (100:Int) ≠ 0)
  have hb := Int.emod_lt_of_pos bd (by norm_num : (0:Int) < 100)
  have hc := Int.emod_nonneg (-bd) (by norm_num : (100:Int) ≠ 0)
  have hd := Int.emod_lt_of_pos (-bd) (by norm_num : (0:Int) < 100)
  have he := Int.ediv_add_emod bd 100
  have hf := Int.ediv_add_emod (-bd) 100
  split_ifs <;> constructor <;> omega

/-- C6: pitch normalization is idempotent under re-derivation — if
`normalizePitch` yields `(rootNote, fineTuneCents)`, then rebuilding
`baseDetune = 100 * rootNote + fineTuneCents` and running the derivation
(`clamp(floor(baseDetune / 100), 0, 127)`, `baseDetune % 100`) again yields
the same pair. -/
theorem claim_C6_pitch_idempotent (z : InZone) :
    deriveRoot (100 * (normalizePitch z).1 + (normalizePitch z).2) =
      normalizePitch z := by
  unfold normalizePitch
  exact deriveRoot_idem _

/-! ## C10 — fixed defaults for absent or falsy source fields -/

/-- C10: for every zone the converter outputs, a missing (nullish)
`keyRangeLow` becomes `low = 0` and a missing `keyRangeHigh` becomes
`high = 127`; a missing or zero `sampleRate` becomes `44100`; and in pitch
derivation a missing or zero `originalPitch` is treated as `6000` and a
missing or zero `coarseTune`/`fineTune` as `0`. -/
theorem claim_C10_field_defaults (cfg : Cfg) (z : InZone) (presetDir : FPath)
    (dd : Dedup) (oz : OutZone)
    (h : ((convertZone cfg z presetDir dd).1 = some oz)) :
    (z.keyRangeLow = none → oz.low = 0) ∧
    (z.keyRangeHigh = none → oz.high = 127) ∧
    ((z.sampleRate = none ∨ z.sampleRate = some 0) → oz.sampleRate = 44100) ∧
    ((z.originalPitch = none ∨ z.originalPitch = some 0) →
      (oz.rootNote, oz.fineTuneCents) =
        deriveRoot (6000 - 100 * jsOrInt z.coarseTune 0 - jsOrInt z.fineTune 0)) ∧
    ((z.coarseTune = none ∨ z.coarseTune = some 0) →
      (oz.rootNote, oz.fineTuneCents) =
        deriveRoot (jsOrInt z.originalPitch 6000 - 100 * 0 - jsOrInt z.fineTune 0)) ∧
    ((z.fineTune = none ∨ z.fineTune = some 0) →
      (oz.rootNote, oz.fineTuneCents) =
        deriveRoot (jsOrInt z.originalPitch 6000 - 100 * jsOrInt z.coarseTune 0 - 0)) := by
  unfold convertZone at h
  dsimp only at h
  split at h
  · exact absurd h (by simp)
  · simp only [Option.some.injEq] at h
    subst h
    refine ⟨fun hl => by simp [jsNullish, hl],
            fun hh => by simp [jsNullish, hh],
            fun hs => by rcases hs with hs | hs <;> simp [jsOrInt, hs],
            fun hp => ?_, fun hc => ?_, fun hf => ?_⟩
    · rcases hp with hp | hp <;> simp [normalizePitch, jsOrInt, hp]
    · rcases hc with hc | hc <;> simp [normalizePitch, jsOrInt, hc]
    · rcases hf with hf | hf <;> simp [normalizePitch, jsOrInt, hf]

/-- Witness for C10 at a concrete zone with all the relevant fields absent. -/
theorem claim_C10_field_defaults_witness :
    let z : InZone := { file := some [1, 2, 3] }
    let oz : OutZone :=
      { low := 0, high := 127, rootNote := 60, fineTuneCents := 0,
        sampleRate := 44100, url := "zone_C4.wav", codec := "wav",
        sha := [1, 2, 3], loop := none }
    (z.keyRangeLow = none → oz.low = 0) ∧
    (z.keyRangeHigh = none → oz.high = 127) ∧
    ((z.sampleRate = none ∨ z.sampleRate = some 0) → oz.sampleRate = 44100) ∧
    ((z.originalPitch = none ∨ z.originalPitch = some 0) →
      (oz.rootNote, oz.fineTuneCents) =
        deriveRoot (6000 - 100 * jsOrInt z.coarseTune 0 - jsOrInt z.fineTune 0)) ∧
    ((z.coarseTune = none ∨ z.coarseTune = some 0) →
      (oz.rootNote, oz.fineTuneCents) =
        deriveRoot (jsOrInt z.originalPitch 6000 - 100 * 0 - jsOrInt z.fineTune 0)) ∧
    ((z.fineTune = none ∨ z.fineTune = some 0) →
      (oz.rootNote, oz.fineTuneCents) =
        deriveRoot (jsOrInt z.originalPitch 6000 - 100 * jsOrInt z.coarseTune 0 - 0)) :=
  claim_C10_field_defaults ⟨false, none, ["out"]⟩ { file := some [1, 2, 3] }
    ["out"] {} _ (by decide)

/-! ## C9 — melodic filename decoding and silent skipping -/

lemma endsWithL_append (suf l : List Char) : endsWithL suf (l ++ suf) = true := by
  simp only [endsWithL, List.length_append, Bool.and_eq_true, decide_eq_true_eq]
  constructor
  · omega
  · have : l.length + suf.length - suf.length = l.length := by omega
    rw [this, List.drop_left]

lemma pickLib_of_clean (lib : List Char) (hne : lib ≠ [])
    (hcl : ∀ c ∈ lib, isLineTerm c = false) : ∃ lb, pickLib lib = some lb := by
  unfold pickLib
  have hm : (lib.takeWhile (fun c => !(isLineTerm c))).length = lib.length := by
    rw [List.takeWhile_eq_self_iff.mpr (by simp_all)]
  have hlen : 1 ≤ lib.length := by
    cases lib with
    | nil => exact absurd rfl hne
    | cons a l => simp
  have hmem : lib.length ∈
      (((if endsWithL "_sf2_file".toList lib then [lib.length - 9] else []) ++
        (if endsWithL "_sf2".toList lib then [lib.length - 4] else []) ++
        [lib.length]).filter
        (fun k => decide (1 ≤ k ∧ k ≤ (lib.takeWhile (fun c => !(isLineTerm c))).length))) := by
    rw [List.mem_filter]
    refine ⟨by simp, ?_⟩
    simp only [hm, decide_eq_true_eq]
    omega
  match hF : (((if endsWithL "_sf2_file".toList lib then [lib.length - 9] else []) ++
        (if endsWithL "_sf2".toList lib then [lib.length - 4] else []) ++
        [lib.length]).filter
        (fun k => decide (1 ≤ k ∧ k ≤ (lib.takeWhile (fun c => !(isLineTerm c))).length))) with
  | [] => rw [hF] at hmem; exact absurd hmem (by simp)
  | k :: ks =>
    refine ⟨lib.take k, ?_⟩
    show (((((if endsWithL "_sf2_file".toList lib then [lib.length - 9] else []) ++
        (if endsWithL "_sf2".toList lib then [lib.length - 4] else []) ++
        [lib.length]).filter
        (fun k => decide (1 ≤ k ∧ k ≤ (lib.takeWhile (fun c => !(isLineTerm c))).length))).head?).map
        (fun k => lib.take k)) = some (lib.take k)
    rw [hF]
    rfl

/-- C9: a melodic filename `{code}_{lib}.json` (4-digit code, nonempty
library part without line terminators) parses to
`gmProgram = ⌊code/10⌋`, `variant = code mod 10`; and a file whose name
fails to parse, or parses to a GM program ≥ 128, leaves the main loop's
state untouched — not converted, not counted as an error. -/
theorem claim_C9_filename_decoding :
    (∀ (d1 d2 d3 d4 : Char) (lib : List Char),
      d1.isDigit = true → d2.isDigit = true → d3.isDigit = true → d4.isDigit = true →
      lib ≠ [] → (∀ c ∈ lib, isLineTerm c = false) →
      digitVal d1 * 1000 + digitVal d2 * 100 + digitVal d3 * 10 + digitVal d4 ≤ 1279 →
      ∃ lb, parseInstrumentFilename
          (d1 :: d2 :: d3 :: d4 :: '_' :: (lib ++ ".json".toList)) =
        some ⟨(digitVal d1 * 1000 + digitVal d2 * 100 + digitVal d3 * 10 + digitVal d4) / 10,
              (digitVal d1 * 1000 + digitVal d2 * 100 + digitVal d3 * 10 + digitVal d4) % 10,
              lb⟩) ∧
    (∀ (cfg : Cfg) (names : List String) (st : MainSt) (f : InstrFile),
      (parseInstrumentFilename f.fname = none ∨
        ∃ info, parseInstrumentFilename f.fname = some info ∧ 128 ≤ info.gmProgram) →
      stepI cfg names st f = st) := by
  constructor
  · intro d1 d2 d3 d4 lib h1 h2 h3 h4 hne hcl _
    obtain ⟨lb, hpl⟩ := pickLib_of_clean lib hne hcl
    refine ⟨String.mk lb, ?_⟩
    have hEnds : endsWithL ".json".toList (lib ++ ".json".toList) = true :=
      endsWithL_append _ _
    have hTake : (lib ++ ".json".toList).take (lib.length + ".json".toList.length - 5) = lib := by
      have h5 : ".json".toList.length = 5 := by decide
      rw [h5]
      have h6 : lib.length + 5 - 5 = lib.length := by omega
      rw [h6, List.take_left]
    simp only [parseInstrumentFilename, h1, h2, h3, h4, hEnds, decide_True,
      Bool.and_self, if_true, List.length_append, hTake, hpl]
  · intro cfg names st f h
    unfold stepI
    rcases h with h | ⟨info, hi, hg⟩
    · rw [h]
      split <;> rfl
    · rw [hi]
      split
      · rfl
      · simp only [if_pos (by omega : 128 ≤ info.gmProgram)]

/-- Witness for C9 at the filename `0071_TestLib.json` (code 71 → GM 7,
variant 1) and a skipped file `1280_TestLib.json` (GM 128). -/
theorem claim_C9_filename_decoding_witness :
    (∃ lb, parseInstrumentFilename
        ('0' :: '0' :: '7' :: '1' :: '_' :: ("TestLib".toList ++ ".json".toList)) =
      some ⟨(digitVal '0' * 1000 + digitVal '0' * 100 + digitVal '7' * 10 + digitVal '1') / 10,
            (digitVal '0' * 1000 + digitVal '0' * 100 + digitVal '7' * 10 + digitVal '1') % 10,
            lb⟩) ∧
    stepI ⟨false, none, ["out"]⟩ [] ⟨{}, [], [], 0, 0⟩
      ⟨"1280_TestLib.json".toList, none⟩ = ⟨{}, [], [], 0, 0⟩ :=
  ⟨claim_C9_filename_decoding.1 '0' '0' '7' '1' "TestLib".toList
      (by decide) (by decide) (by decide) (by decide) (by decide) (by decide) (by decide),
   claim_C9_filename_decoding.2 ⟨false, none, ["out"]⟩ [] ⟨{}, [], [], 0, 0⟩
      ⟨"1280_TestLib.json".toList, none⟩
      (Or.inr ⟨⟨128, 0, "TestLib"⟩, by decide, by decide⟩)⟩

/-! ## C2 — percussion classification -/

/-- A percussion-directory source whose single instrument has no zone with
`midi = 128` (one zone, `midi = 9`, with an audio payload). -/
def srcC2 : SourceData :=
  { names := some []
    iFiles := none
    pFiles := some [{ fname := "35_0_TestLib.json".toList
                      parsed := some ⟨[{ file := some [1], midi := some 9 }]⟩ }] }

/-- C2 counterexample: an instrument converted from the percussion input
directory whose zones never declare `midi = 128` is *not* routed to the
percussion output path `{library}/percussion/individual/{name}` — its files
land under `{library}/instruments/unknown/{name}` and no percussion-path
file is written, refuting the claimed "if and only if". -/
theorem claim_C2_counterexample :
    ["out", "TestLib", "instruments", "unknown", "PercussionB135", "preset.json"] ∈
      writtenPaths (runConverter ⟨false, none, ["out"]⟩ srcC2).events ∧
    ∀ p ∈ writtenPaths (runConverter ⟨false, none, ["out"]⟩ srcC2).events,
      "percussion" ∉ p := by
  decide

/-- C2 amended: an instrument is routed to the percussion output path
`{library}/percussion/individual/{name}` (and its preset document opens with
the `percussion` tag) if and only if at least one of its zones declares
`midi = 128` — independently of the `gmProgram` argument, i.e. of which
source directory it came from; an instrument without such a zone goes to
`{library}/instruments/{category}/{name}` even when it comes from the
percussion directory. -/
theorem claim_C2_amended (cfg : Cfg) (inst : Instrument) (gm : Nat)
    (nm lib : String) (var : Nat) (dd : Dedup)
    (hdry : cfg.dryRun = false) (hz : inst.zones ≠ []) :
    (∃ evs',
      (convertInstrument cfg inst gm nm lib var dd).2.2 =
        FsEvent.mkdirE
          (if isPercussionOf inst.zones then
            pjoin cfg.outDir [safeLibOf lib, "percussion", "individual", safeNameOf nm]
          else
            pjoin cfg.outDir
              [safeLibOf lib, "instruments", categoryOf false gm, safeNameOf nm]) :: evs') ∧
    (isPercussionOf inst.zones = true ↔ ∃ z ∈ inst.zones, z.midi = some 128) ∧
    (∀ e, (convertInstrument cfg inst gm nm lib var dd).1 = some e →
      e.tags.head? =
        some (if isPercussionOf inst.zones then "percussion" else "melodic")) := by
  refine ⟨?_, ?_, ?_⟩
  · unfold convertInstrument
    rw [if_neg hz]
    dsimp only
    rw [hdry]
    unfold presetDirOf categoryOf
    by_cases hp : isPercussionOf inst.zones
    · rw [hp]
      simp only [if_true, Bool.false_eq_true, if_false]
      split <;> exact ⟨_, rfl⟩
    · simp only [hp, Bool.false_eq_true, if_false]
      split <;> exact ⟨_, rfl⟩
  · unfold isPercussionOf
    rw [List.any_eq_true]
    constructor
    · rintro ⟨z, hz1, hz2⟩
      exact ⟨z, hz1, by simpa using hz2⟩
    · rintro ⟨z, hz1, hz2⟩
      exact ⟨z, hz1, by simpa using hz2⟩
  · intro e he
    unfold convertInstrument at he
    rw [if_neg hz] at he
    dsimp only at he
    split at he
    · exact absurd he (by simp)
    · simp only [Option.some.injEq] at he
      subst he
      unfold buildTags
      by_cases hp : isPercussionOf inst.zones <;> simp [hp]

/-- Witness for the amended C2 at a concrete percussion-directory-style
call (`gm = 128`) whose zones carry no `midi = 128`. -/
theorem claim_C2_amended_witness :
    let cfg : Cfg := ⟨false, none, ["out"]⟩
    let inst : Instrument := ⟨[{ file := some [1], midi := some 9 }]⟩
    (∃ evs',
      (convertInstrument cfg inst 128 "P" "TestLib" 0 {}).2.2 =
        FsEvent.mkdirE
          (if isPercussionOf inst.zones then
            pjoin cfg.outDir [safeLibOf "TestLib", "percussion", "individual", safeNameOf "P"]
          else
            pjoin cfg.outDir
              [safeLibOf "TestLib", "instruments", categoryOf false 128, safeNameOf "P"]) :: evs') ∧
    (isPercussionOf inst.zones = true ↔ ∃ z ∈ inst.zones, z.midi = some 128) ∧
    (∀ e, (convertInstrument cfg inst 128 "P" "TestLib" 0 {}).1 = some e →
      e.tags.head? =
        some (if isPercussionOf inst.zones then "percussion" else "melodic")) :=
  claim_C2_amended ⟨false, none, ["out"]⟩ ⟨[{ file := some [1], midi := some 9 }]⟩
    128 "P" "TestLib" 0 {} rfl (by decide)

/-! ## C3 — instruments with zero surviving zones -/

lemma convertZone_dead (cfg : Cfg) (z : InZone) (dir : FPath) (dd : Dedup)
    (hf : z.file = none) (hs : z.sample = none) :
    convertZone cfg z dir dd = (none, dd, []) := by
  unfold convertZone extractAudio
  rw [hf, hs]

lemma convertZonesLoop_dead (cfg : Cfg) (zones : List InZone) (dir : FPath)
    (dd : Dedup) (h : ∀ z ∈ zones, z.file = none ∧ z.sample = none) :
    convertZonesLoop cfg zones dir dd = ([], dd, []) := by
  unfold convertZonesLoop
  induction zones with
  | nil => rfl
  | cons z zs ih =>
    rw [List.foldl_cons, convertZone_dead cfg z dir dd (h z (by simp)).1 (h z (by simp)).2]
    exact ih (fun w hw => h w (by simp [hw]))

/-- A melodic source whose single instrument has one zone without any audio
payload. -/
def srcC3 : SourceData :=
  { names := some ["Piano"]
    iFiles := some [{ fname := "0000_Lib.json".toList, parsed := some ⟨[{}]⟩ }]
    pFiles := none }

/-- C3 counterexample: an instrument whose only zone yields no audio is
dropped (no preset document, not counted as converted or error, absent from
the index), but in a non-dry run its output directory *is* created —
refuting "creates no output directory for it". -/
theorem claim_C3_counterexample :
    (runConverter ⟨false, none, ["out"]⟩ srcC3).convertedCount = 0 ∧
    (runConverter ⟨false, none, ["out"]⟩ srcC3).errorCount = 0 ∧
    (runConverter ⟨false, none, ["out"]⟩ srcC3).entriesByLibrary = [] ∧
    writtenPaths (runConverter ⟨false, none, ["out"]⟩ srcC3).events =
      [["out", "index.json"]] ∧
    FsEvent.mkdirE ["out", "Lib", "instruments", "piano", "Piano"] ∈
      (runConverter ⟨false, none, ["out"]⟩ srcC3).events := by
  decide

/-- C3 amended: an input instrument all of whose zones fail to yield audio is
dropped — no preset document is written, it is neither counted as converted
nor as an error, and it is absent from the library index — but its output
directory is still created (by the `mkdirSync` that precedes the zone loop)
whenever the instrument has at least one zone and the run is not a dry run;
only an instrument with an empty zone list creates no directory. -/
theorem claim_C3_no_surviving_zones (cfg : Cfg) (inst : Instrument) (gm : Nat)
    (nm lib : String) (var : Nat) (dd : Dedup)
    (h : ∀ z ∈ inst.zones, z.file = none ∧ z.sample = none) :
    convertInstrument cfg inst gm nm lib var dd =
      (none, dd,
        if inst.zones = [] ∨ cfg.dryRun = true then []
        else
          [FsEvent.mkdirE
            (presetDirOf cfg.outDir (isPercussionOf inst.zones)
              (categoryOf (isPercussionOf inst.zones) gm) (safeLibOf lib)
              (safeNameOf nm))]) ∧
    (∀ (names : List String) (st : MainSt) (f : InstrFile),
      f.parsed = some inst →
      (stepI cfg names st f).convertedCount = st.convertedCount ∧
      (stepI cfg names st f).errorCount = st.errorCount ∧
      (stepI cfg names st f).entriesByLibrary = st.entriesByLibrary) := by
  have hgen : ∀ (gm' : Nat) (nm' lib' : String) (var' : Nat) (dd' : Dedup),
      convertInstrument cfg inst gm' nm' lib' var' dd' =
      (none, dd',
        if inst.zones = [] ∨ cfg.dryRun = true then []
        else
          [FsEvent.mkdirE
            (presetDirOf cfg.outDir (isPercussionOf inst.zones)
              (categoryOf (isPercussionOf inst.zones) gm') (safeLibOf lib')
              (safeNameOf nm'))]) := by
    intro gm' nm' lib' var' dd'
    unfold convertInstrument
    by_cases hz : inst.zones = []
    · simp [hz]
    · rw [if_neg hz]
      dsimp only
      rw [convertZonesLoop_dead cfg inst.zones _ dd' h]
      simp only [if_pos rfl, List.append_nil]
      by_cases hdry : cfg.dryRun = true
      · simp [hz, hdry]
      · simp only [Bool.not_eq_true] at hdry
        simp [hz, hdry]
  refine ⟨hgen gm nm lib var dd, fun names st f hp => ?_⟩
  unfold stepI
  split
  · exact ⟨rfl, rfl, rfl⟩
  · cases hParse : parseInstrumentFilename f.fname with
    | none => simp [hParse]
    | some info =>
      by_cases hgm : 128 ≤ info.gmProgram
      · simp [hParse, hgm]
      · simp [hParse, hgm, hp, hgen]

/-- Witness for the amended C3 at a one-dead-zone instrument. -/
theorem claim_C3_no_surviving_zones_witness :
    (convertInstrument ⟨false, none, ["out"]⟩ ⟨[{}]⟩ 0 "Piano" "Lib" 0 {} =
      (none, {},
        if ([{}] : List InZone) = [] ∨ false = true then []
        else
          [FsEvent.mkdirE
            (presetDirOf ["out"] (isPercussionOf [{}])
              (categoryOf (isPercussionOf [{}]) 0) (safeLibOf "Lib")
              (safeNameOf "Piano"))])) ∧
    (∀ (names : List String) (st : MainSt) (f : InstrFile),
      f.parsed = some ⟨[{}]⟩ →
      (stepI ⟨false, none, ["out"]⟩ names st f).convertedCount = st.convertedCount ∧
      (stepI ⟨false, none, ["out"]⟩ names st f).errorCount = st.errorCount ∧
      (stepI ⟨false, none, ["out"]⟩ names st f).entriesByLibrary = st.entriesByLibrary) :=
  claim_C3_no_surviving_zones ⟨false, none, ["out"]⟩ ⟨[{}]⟩ 0 "Piano" "Lib" 0 {}
    (by intro z hz; simp at hz; subst hz; exact ⟨rfl, rfl⟩)

/-! ## C4 — percussion tag replacement -/

/-- The `(path, tags)` of every preset document written in an event list. -/
def presetTagWrites (evs : List FsEvent) : List (FPath × List String) :=
  evs.filterMap (fun e =>
    match e with
    | .writeE p (.presetF pr) => some (p, pr.tags)
    | _ => none)

/-- A percussion source file whose instrument genuinely is percussion
(`midi = 128`) with an audio payload. -/
def srcC4 : SourceData :=
  { names := some []
    iFiles := none
    pFiles := some [{ fname := "35_0_Lib.json".toList
                      parsed := some ⟨[{ file := some [1], midi := some 128 }]⟩ }] }

/-- C4 counterexample: for a percussion instrument the *written preset
document* keeps the initially built tag list `["percussion", "gm:128",
"one-shot"]`; only the library-index entry carries the replaced tags
`["percussion", "midi:35"]` — refuting "replaced … in every final output
artifact (the written preset document as well as the index entry)". -/
theorem claim_C4_counterexample :
    presetTagWrites (runConverter ⟨false, none, ["out"]⟩ srcC4).events =
      [(["out", "Lib", "percussion", "individual", "PercussionB135", "preset.json"],
        ["percussion", "gm:128", "one-shot"])] ∧
    ((runConverter ⟨false, none, ["out"]⟩ srcC4).entriesByLibrary.map
      (fun g => g.2.map (fun e => e.tags))) = [[["percussion", "midi:35"]]] ∧
    (["percussion", "gm:128", "one-shot"] : List String) ≠ ["percussion", "midi:35"] := by
  decide

lemma extractAudio_events_audio (cfg : Cfg) (z : InZone) (dir : FPath)
    (nn : String) (dd : Dedup) :
    ∀ p pr, FsEvent.writeE p (.presetF pr) ∉ (extractAudio cfg z dir nn dd).2.2 := by
  intro p pr
  unfold extractAudio
  split
  · simp
  · dsimp only
    split <;> simp

lemma convertZone_events_audio (cfg : Cfg) (z : InZone) (dir : FPath) (dd : Dedup) :
    ∀ p pr, FsEvent.writeE p (.presetF pr) ∉ (convertZone cfg z dir dd).2.2 := by
  intro p pr
  unfold convertZone
  dsimp only
  split
  · next _ _ heq =>
    have := extractAudio_events_audio cfg z dir (midiToNoteName (normalizePitch z).1) dd p pr
    rw [heq] at this
    exact this
  · next _ _ _ heq =>
    have := extractAudio_events_audio cfg z dir (midiToNoteName (normalizePitch z).1) dd p pr
    rw [heq] at this
    exact this

lemma convertZonesLoop_events_audio (cfg : Cfg) (zones : List InZone)
    (dir : FPath) (dd : Dedup) :
    ∀ p pr, FsEvent.writeE p (.presetF pr) ∉ (convertZonesLoop cfg zones dir dd).2.2 := by
  suffices hgen : ∀ (acc : List OutZone × Dedup × List FsEvent) p pr,
      FsEvent.writeE p (.presetF pr) ∉ acc.2.2 →
      FsEvent.writeE p (.presetF pr) ∉
        (zones.foldl
          (fun acc z =>
            match convertZone cfg z dir acc.2.1 with
            | (none, dd1, evs) => (acc.1, dd1, acc.2.2 ++ evs)
            | (some oz, dd1, evs) => (acc.1 ++ [oz], dd1, acc.2.2 ++ evs))
          acc).2.2 by
    intro p pr
    exact hgen ([], dd, []) p pr (by simp)
  induction zones with
  | nil => intro acc p pr h; exact h
  | cons z zs ih =>
    intro acc p pr h
    rw [List.foldl_cons]
    have hz := convertZone_events_audio cfg z dir acc.2.1 p pr
    cases hcz : convertZone cfg z dir acc.2.1 with
    | mk r1 r2 =>
      rw [hcz] at hz
      cases r1 with
      | none =>
        refine ih _ p pr ?_
        simp only [List.mem_append]
        rintro (hc | hc)
        · exact h hc
        · exact hz hc
      | some oz =>
        refine ih _ p pr ?_
        simp only [List.mem_append]
        rintro (hc | hc)
        · exact h hc
        · exact hz hc

/-- In a non-dry run, a successful `convertInstrument` writes exactly one
preset document, whose tags are the entry's built tags. -/
lemma convertInstrument_presetWrite (cfg : Cfg) (inst : Instrument) (gm : Nat)
    (nm lib : String) (var : Nat) (dd : Dedup) (entry : CEntry) (dd1 : Dedup)
    (evs : List FsEvent)
    (hdry : cfg.dryRun = false)
    (h : convertInstrument cfg inst gm nm lib var dd = (some entry, dd1, evs)) :
    ∀ p pr, FsEvent.writeE p (.presetF pr) ∈ evs → pr.tags = entry.tags := by
  intro p pr hmem
  unfold convertInstrument at h
  by_cases hz : inst.zones = []
  · rw [if_pos hz] at h
    exact absurd h (by simp)
  · rw [if_neg hz] at h
    dsimp only at h
    split at h
    · exact absurd h (by simp)
    · rw [hdry] at h
      simp only [Bool.false_eq_true, if_false, Option.some.injEq, Prod.mk.injEq] at h
      obtain ⟨he, _, hevs⟩ := h
      subst hevs
      simp only [List.mem_append, List.mem_singleton] at hmem
      rcases hmem with (hmem | hmem) | hmem
      · simp at hmem
      · exact absurd hmem (convertZonesLoop_events_audio cfg inst.zones _ dd p pr)
      · simp only [FsEvent.writeE.injEq, FData.presetF.injEq] at hmem
        obtain ⟨hmp, hmpr⟩ := hmem
        subst hmpr
        subst he
        rfl

/-- C4 amended: the replacement of the tag list by
`["percussion", "midi:{note}"]` happens only on the library-index entry of an
instrument converted from the percussion input directory; the preset document
written for it keeps the initially built tag list, and an instrument from the
melodic directory has its built tags in the index entry unchanged. -/
theorem claim_C4_tags_replaced_in_index_only (cfg : Cfg) (st : MainSt)
    (f : InstrFile) (info : PercInfo) (inst : Instrument) (entry : CEntry)
    (dd1 : Dedup) (evs : List FsEvent)
    (hdry : cfg.dryRun = false)
    (hlim : atLimit cfg.limit st.convertedCount = false)
    (hparse : parsePercussionFilename f.fname = some info)
    (hp : f.parsed = some inst)
    (hconv : convertInstrument cfg inst 128
      (let nn := midiToNoteName (info.midiNote : Int)
       let mn := info.midiNote
       s!"Percussion_{nn}_{mn}") info.library info.variant st.dedup =
      (some entry, dd1, evs)) :
    ((stepP cfg st f).entriesByLibrary =
      pushEntry st.entriesByLibrary entry.library
        { entry with
          tags := ["percussion",
            (let mn := info.midiNote
             s!"midi:{mn}")] }) ∧
    (∀ p pr, FsEvent.writeE p (.presetF pr) ∈ evs → pr.tags = entry.tags) ∧
    (∀ (names : List String) (st' : MainSt) (f' : InstrFile) (info' : MelInfo)
       (inst' : Instrument) (entry' : CEntry) (dd' : Dedup) (evs' : List FsEvent),
      atLimit cfg.limit st'.convertedCount = false →
      parseInstrumentFilename f'.fname = some info' →
      info'.gmProgram < 128 →
      f'.parsed = some inst' →
      convertInstrument cfg inst' info'.gmProgram
          (cleanNameOf (jsOrStr (names.get? info'.gmProgram)
            (let g := info'.gmProgram
             s!"Program {g}"))) info'.library info'.variant st'.dedup =
        (some entry', dd', evs') →
      (stepI cfg names st' f').entriesByLibrary =
        pushEntry st'.entriesByLibrary entry'.library entry') := by
  refine ⟨?_, convertInstrument_presetWrite cfg inst 128 _ info.library info.variant
      st.dedup entry dd1 evs hdry hconv, ?_⟩
  · unfold stepP
    rw [hlim]
    simp only [Bool.false_eq_true, if_false, hparse, hp]
    rw [hconv]
  · intro names st' f' info' inst' entry' dd' evs' hlim' hparse' hgm' hp' hconv'
    unfold stepI
    rw [hlim']
    simp only [Bool.false_eq_true, if_false, hparse', if_neg (by omega : ¬ 128 ≤ info'.gmProgram), hp']
    rw [hconv']

def c4cfg : Cfg := ⟨false, none, ["out"]⟩

def c4inst : Instrument := ⟨[{ file := some [1], midi := some 128 }]⟩

def c4file : InstrFile := { fname := "35_0_Lib.json".toList, parsed := some c4inst }

def c4st : MainSt := ⟨{}, [], [], 0, 0⟩

def c4res := convertInstrument c4cfg c4inst 128 "Percussion_B1_35" "Lib" 0 {}

def c4entry : CEntry := (c4res.1).getD ⟨"", [], "", [], 0, "", 0, (0, 0)⟩

/-- Witness for the amended C4 at the concrete percussion file
`35_0_Lib.json`. -/
theorem claim_C4_tags_replaced_in_index_only_witness :
    ((stepP c4cfg c4st c4file).entriesByLibrary =
      pushEntry c4st.entriesByLibrary c4entry.library
        { c4entry with
          tags := ["percussion",
            (let mn := (35 : Nat)
             s!"midi:{mn}")] }) ∧
    (∀ p pr, FsEvent.writeE p (.presetF pr) ∈ c4res.2.2 → pr.tags = c4entry.tags) ∧
    (∀ (names : List String) (st' : MainSt) (f' : InstrFile) (info' : MelInfo)
       (inst' : Instrument) (entry' : CEntry) (dd' : Dedup) (evs' : List FsEvent),
      atLimit c4cfg.limit st'.convertedCount = false →
      parseInstrumentFilename f'.fname = some info' →
      info'.gmProgram < 128 →
      f'.parsed = some inst' →
      convertInstrument c4cfg inst' info'.gmProgram
          (cleanNameOf (jsOrStr (names.get? info'.gmProgram)
            (let g := info'.gmProgram
             s!"Program {g}"))) info'.library info'.variant st'.dedup =
        (some entry', dd', evs') →
      (stepI c4cfg names st' f').entriesByLibrary =
        pushEntry st'.entriesByLibrary entry'.library entry') :=
  claim_C4_tags_replaced_in_index_only c4cfg c4st c4file ⟨35, 0, "Lib"⟩ c4inst
    c4entry c4res.2.1 c4res.2.2 rfl rfl (by decide) rfl (by decide)

/-! ## C1 — audio dedup -/

/-- The `(path, bytes)` of every audio blob written in an event list. -/
def audioWrites (evs : List FsEvent) : List (FPath × Bytes) :=
  evs.filterMap (fun e =>
    match e with
    | .writeE p (.audioF b) => some (p, b)
    | _ => none)

/-- Two melodic instruments in different libraries, each with one zone whose
decoded payload is the same byte string `[7, 7]`. -/
def srcC1A : SourceData :=
  { names := some ["Piano", "Piano2"]
    iFiles := some
      [{ fname := "0000_LibA.json".toList, parsed := some ⟨[{ file := some [7, 7] }]⟩ },
       { fname := "0010_LibB.json".toList, parsed := some ⟨[{ file := some [7, 7] }]⟩ }]
    pFiles := none }

/-- One instrument with two zones carrying byte-identical payloads `[9, 9]`
and identical derived root notes (so identical blob filenames). -/
def srcC1B : SourceData :=
  { names := some ["Piano"]
    iFiles := some
      [{ fname := "0000_Lib.json".toList
         parsed := some ⟨[{ file := some [9, 9] }, { file := some [9, 9] }]⟩ }]
    pFiles := none }

/-- C1 is a code bug: the dedup table counts the repeat occurrence
(`saved = 1`, map count `2`) and records the first producer's filename, but
`writeFileSync` is unconditional — the second byte-identical zone still
writes its own blob file (two stored files, not one), and when the repeat
occurs inside one instrument with the same note name, the same path is
written twice, overwriting the blob after its first write. -/
theorem claim_C1_dedup_not_enforced :
    ((runConverter ⟨false, none, ["out"]⟩ srcC1A).dedup.saved = 1 ∧
     (runConverter ⟨false, none, ["out"]⟩ srcC1A).dedup.hashes =
       [([7, 7], "zone_C4.wav", 2)] ∧
     audioWrites (runConverter ⟨false, none, ["out"]⟩ srcC1A).events =
       [(["out", "LibA", "instruments", "piano", "Piano", "zone_C4.wav"], [7, 7]),
        (["out", "LibB", "instruments", "piano", "Piano2", "zone_C4.wav"], [7, 7])] ∧
     (["out", "LibA", "instruments", "piano", "Piano", "zone_C4.wav"] : FPath) ≠
       ["out", "LibB", "instruments", "piano", "Piano2", "zone_C4.wav"]) ∧
    (audioWrites (runConverter ⟨false, none, ["out"]⟩ srcC1B).events =
       [(["out", "Lib", "instruments", "piano", "Piano", "zone_C4.wav"], [9, 9]),
        (["out", "Lib", "instruments", "piano", "Piano", "zone_C4.wav"], [9, 9])] ∧
     (runConverter ⟨false, none, ["out"]⟩ srcC1B).dedup.saved = 1) := by
  decide

/-! ## C7 — dry run -/

lemma extractAudio_dry (l : Option Nat) (o : FPath) (z : InZone) (dir : FPath)
    (nn : String) (dd : Dedup) :
    extractAudio ⟨true, l, o⟩ z dir nn dd =
      ((extractAudio ⟨false, l, o⟩ z dir nn dd).1,
       (extractAudio ⟨false, l, o⟩ z dir nn dd).2.1, []) := by
  unfold extractAudio
  split <;> rfl

lemma convertZone_dry (l : Option Nat) (o : FPath) (z : InZone) (dir : FPath)
    (dd : Dedup) :
    convertZone ⟨true, l, o⟩ z dir dd =
      ((convertZone ⟨false, l, o⟩ z dir dd).1,
       (convertZone ⟨false, l, o⟩ z dir dd).2.1, []) := by
  unfold convertZone
  simp only [extractAudio_dry]
  cases hE : extractAudio ⟨false, l, o⟩ z dir (midiToNoteName (normalizePitch z).1) dd with
  | mk r1 r2 =>
    cases r1 with
    | none => rfl
    | some ai => rfl

lemma convertZonesLoop_dry (l : Option Nat) (o : FPath) (zones : List InZone)
    (dir : FPath) (dd : Dedup) :
    convertZonesLoop ⟨true, l, o⟩ zones dir dd =
      ((convertZonesLoop ⟨false, l, o⟩ zones dir dd).1,
       (convertZonesLoop ⟨false, l, o⟩ zones dir dd).2.1, []) := by
  unfold convertZonesLoop
  suffices hgen : ∀ (zs acc1 : List OutZone) (d : Dedup) (ev : List FsEvent),
      ∀ (zones : List InZone),
      (zones.foldl
        (fun acc z =>
          match convertZone ⟨true, l, o⟩ z dir acc.2.1 with
          | (none, dd1, evs) => (acc.1, dd1, acc.2.2 ++ evs)
          | (some oz, dd1, evs) => (acc.1 ++ [oz], dd1, acc.2.2 ++ evs))
        (zs, d, [])) =
      ((zones.foldl
        (fun acc z =>
          match convertZone ⟨false, l, o⟩ z dir acc.2.1 with
          | (none, dd1, evs) => (acc.1, dd1, acc.2.2 ++ evs)
          | (some oz, dd1, evs) => (acc.1 ++ [oz], dd1, acc.2.2 ++ evs))
        (zs, d, ev)).1,
       (zones.foldl
        (fun acc z =>
          match convertZone ⟨false, l, o⟩ z dir acc.2.1 with
          | (none, dd1, evs) => (acc.1, dd1, acc.2.2 ++ evs)
          | (some oz, dd1, evs) => (acc.1 ++ [oz], dd1, acc.2.2 ++ evs))
        (zs, d, ev)).2.1, []) by
    exact hgen [] [] dd [] zones
  intro zs acc1 d ev zones
  induction zones generalizing zs d ev with
  | nil => rfl
  | cons z rest ih =>
    rw [List.foldl_cons, List.foldl_cons, convertZone_dry]
    cases hC : convertZone ⟨false, l, o⟩ z dir d with
    | mk r1 r2 =>
      cases r1 with
      | none => exact ih zs r2.1 (ev ++ r2.2)
      | some oz => exact ih (zs ++ [oz]) r2.1 (ev ++ r2.2)

lemma convertInstrument_dry (l : Option Nat) (o : FPath) (inst : Instrument)
    (gm : Nat) (nm lib : String) (var : Nat) (dd : Dedup) :
    convertInstrument ⟨true, l, o⟩ inst gm nm lib var dd =
      ((convertInstrument ⟨false, l, o⟩ inst gm nm lib var dd).1,
       (convertInstrument ⟨false, l, o⟩ inst gm nm lib var dd).2.1, []) := by
  unfold convertInstrument
  by_cases hz : inst.zones = []
  · simp [hz]
  · rw [if_neg hz, if_neg hz]
    dsimp only
    rw [convertZonesLoop_dry]
    cases hL : convertZonesLoop ⟨false, l, o⟩ inst.zones
        (presetDirOf o (isPercussionOf inst.zones)
          (categoryOf (isPercussionOf inst.zones) gm) (safeLibOf lib) (safeNameOf nm))
        dd with
    | mk cz r2 =>
      by_cases hcz : cz = []
      · simp [hcz]
      · simp [hcz]

/-- The relation between the dry-run loop state and the wet-run loop state:
equal statistics, and the dry state has no events. -/
def DryRel (s1 s2 : MainSt) : Prop :=
  s1.dedup = s2.dedup ∧ s1.entriesByLibrary = s2.entriesByLibrary ∧
  s1.convertedCount = s2.convertedCount ∧ s1.errorCount = s2.errorCount ∧
  s1.events = []

lemma foldl_rel {σ₁ σ₂ α : Type _} (R : σ₁ → σ₂ → Prop)
    (f1 : σ₁ → α → σ₁) (f2 : σ₂ → α → σ₂)
    (h : ∀ s1 s2 x, R s1 s2 → R (f1 s1 x) (f2 s2 x)) :
    ∀ (xs : List α) (s1 : σ₁) (s2 : σ₂), R s1 s2 → R (xs.foldl f1 s1) (xs.foldl f2 s2) := by
  intro xs
  induction xs with
  | nil => intro s1 s2 hR; exact hR
  | cons x rest ih => intro s1 s2 hR; exact ih _ _ (h s1 s2 x hR)

lemma stepI_dry (l : Option Nat) (o : FPath) (names : List String)
    (s1 s2 : MainSt) (f : InstrFile) (hR : DryRel s1 s2) :
    DryRel (stepI ⟨true, l, o⟩ names s1 f) (stepI ⟨false, l, o⟩ names s2 f) := by
  obtain ⟨h1, h2, h3, h4, h5⟩ := hR
  unfold stepI
  dsimp only
  rw [h3]
  split
  · exact ⟨h1, h2, h3, h4, h5⟩
  · cases hP : parseInstrumentFilename f.fname with
    | none => exact ⟨h1, h2, h3, h4, h5⟩
    | some info =>
      by_cases hgm : 128 ≤ info.gmProgram
      · simp only [if_pos hgm]
        exact ⟨h1, h2, h3, h4, h5⟩
      · simp only [if_neg hgm]
        cases hp : f.parsed with
        | none =>
          dsimp only
          refine ⟨?_, ?_, ?_, ?_, ?_⟩ <;> simp [h1, h2, h3, h4, h5]
        | some inst =>
          dsimp only
          rw [h1, convertInstrument_dry]
          cases hC : convertInstrument ⟨false, l, o⟩ inst info.gmProgram
              (cleanNameOf (jsOrStr (names.get? info.gmProgram)
                (let g := info.gmProgram
                 s!"Program {g}"))) info.library info.variant s2.dedup with
          | mk r1 r2 =>
            cases r1 with
            | none =>
              dsimp only
              refine ⟨?_, ?_, ?_, ?_, ?_⟩ <;> simp [h1, h2, h3, h4, h5]
            | some entry =>
              dsimp only
              refine ⟨?_, ?_, ?_, ?_, ?_⟩ <;> simp [h1, h2, h3, h4, h5]

lemma stepP_dry (l : Option Nat) (o : FPath)
    (s1 s2 : MainSt) (f : InstrFile) (hR : DryRel s1 s2) :
    DryRel (stepP ⟨true, l, o⟩ s1 f) (stepP ⟨false, l, o⟩ s2 f) := by
  obtain ⟨h1, h2, h3, h4, h5⟩ := hR
  unfold stepP
  dsimp only
  rw [h3]
  split
  · exact ⟨h1, h2, h3, h4, h5⟩
  · cases hP : parsePercussionFilename f.fname with
    | none => exact ⟨h1, h2, h3, h4, h5⟩
    | some info =>
      cases hp : f.parsed with
      | none =>
        dsimp only
        refine ⟨?_, ?_, ?_, ?_, ?_⟩ <;> simp [h1, h2, h3, h4, h5]
      | some inst =>
        dsimp only
        rw [h1, convertInstrument_dry]
        cases hC : convertInstrument ⟨false, l, o⟩ inst 128
            (let nn := midiToNoteName (info.midiNote : Int)
             let mn := info.midiNote
             s!"Percussion_{nn}_{mn}") info.library info.variant s2.dedup with
        | mk r1 r2 =>
          cases r1 with
          | none =>
            dsimp only
            refine ⟨?_, ?_, ?_, ?_, ?_⟩ <;> simp [h1, h2, h3, h4, h5]
          | some entry =>
            dsimp only
            refine ⟨?_, ?_, ?_, ?_, ?_⟩ <;> simp [h1, h2, h3, h4, h5]

/-- C7: with `--dry-run`, the converter performs no filesystem effect at all
(no directory creation, no audio blob, no preset document, no index), while
computing exactly the same statistics — conversion and error counts, dedup
table and counter, and the per-library catalog — as the non-dry run on the
same input. -/
theorem claim_C7_dry_run_writes_nothing (l : Option Nat) (o : FPath)
    (src : SourceData) :
    (runConverter ⟨true, l, o⟩ src).events = [] ∧
    runConverter ⟨true, l, o⟩ src =
      { runConverter ⟨false, l, o⟩ src with events := [] } := by
  suffices h : runConverter ⟨true, l, o⟩ src =
      { runConverter ⟨false, l, o⟩ src with events := [] } by
    exact ⟨by rw [h], h⟩
  cases hN : src.names with
  | none => unfold runConverter; rw [hN]
  | some names =>
    have hR : DryRel (mainLoopSt ⟨true, l, o⟩ names src)
        (mainLoopSt ⟨false, l, o⟩ names src) := by
      unfold mainLoopSt
      dsimp only
      cases hI : src.iFiles with
      | none =>
        cases hPf : src.pFiles with
        | none => exact ⟨rfl, rfl, rfl, rfl, rfl⟩
        | some fsp =>
          exact foldl_rel DryRel _ _ (fun a b x hx => stepP_dry l o a b x hx)
            (listDirFiles fsp) _ _ ⟨rfl, rfl, rfl, rfl, rfl⟩
      | some fsi =>
        have hfold := foldl_rel DryRel _ _ (fun a b x hx => stepI_dry l o names a b x hx)
          (listDirFiles fsi) ⟨{}, [], [], 0, 0⟩ ⟨{}, [.mkdirE o], [], 0, 0⟩
          ⟨rfl, rfl, rfl, rfl, rfl⟩
        cases hPf : src.pFiles with
        | none => exact hfold
        | some fsp =>
          exact foldl_rel DryRel _ _ (fun a b x hx => stepP_dry l o a b x hx)
            (listDirFiles fsp) _ _ hfold
    obtain ⟨h1, h2, h3, h4, h5⟩ := hR
    unfold runConverter
    rw [hN]
    dsimp only
    rw [h1, h2, h3, h4]
    simp [libIndexEvs, rootIndexEvs, convRootIndex, h5]

/-! ## Tree lemmas shared by the index-validity and idempotence claims -/

lemma find?_map_name (cs : List (String × FsTree)) (g : String × FsTree → String × FsTree)
    (hg : ∀ e, (g e).1 = e.1) (n : String) :
    (cs.map g).find? (fun e => e.1 = n) = (cs.find? (fun e => e.1 = n)).map g := by
  induction cs with
  | nil => rfl
  | cons e rest ih =>
    simp only [List.map_cons, List.find?_cons]
    rw [hg e]
    by_cases h : e.1 = n
    · simp [h]
    · simp only [h, decide_False]
      exact ih

lemma setFile_dirN_repl (cs : List (String × FsTree)) (a : String) (f : TFile)
    (h : (cs.any fun e => e.1 = a) = true) :
    setFile (.dirN cs) [a] f =
      .dirN (cs.map (fun e => if e.1 = a ∧ !e.2.isDir then (e.1, .fileN f) else e)) := by
  unfold setFile
  dsimp only
  rw [if_pos h]

lemma setFile_dirN_app (cs : List (String × FsTree)) (a : String) (f : TFile)
    (h : ¬ ((cs.any fun e => e.1 = a) = true)) :
    setFile (.dirN cs) [a] f = .dirN (cs ++ [(a, .fileN f)]) := by
  unfold setFile
  dsimp only
  rw [if_neg h]

lemma setFile_dirN_deep (cs : List (String × FsTree)) (a a2 : String)
    (rest : FPath) (f : TFile) :
    setFile (.dirN cs) (a :: a2 :: rest) f =
      .dirN (cs.map (fun e =>
        if e.1 = a then (e.1, setFile e.2 (a2 :: rest) f) else e)) := rfl

lemma getFile_dirN_cons (cs : List (String × FsTree)) (m : String) (qrest : FPath) :
    getFile (.dirN cs) (m :: qrest) =
      (match cs.find? (fun e => e.1 = m) with
       | some e => getFile e.2 qrest
       | none => none) := rfl

lemma setFile_isDir (t : FsTree) (wp : FPath) (f : TFile) :
    (setFile t wp f).isDir = t.isDir := by
  cases t with
  | fileN d =>
    cases wp with
    | nil => rfl
    | cons a rest => cases rest <;> rfl
  | dirN cs =>
    cases wp with
    | nil => rfl
    | cons a rest =>
      cases rest with
      | nil =>
        by_cases h : (cs.any fun e => e.1 = a) = true
        · rw [setFile_dirN_repl cs a f h]
          rfl
        · rw [setFile_dirN_app cs a f h]
          rfl
      | cons a2 rest2 =>
        rw [setFile_dirN_deep]
        rfl

/-- A write never changes what `getFile` returns at any other path. -/
lemma getFile_setFile_ne (wp : FPath) (t : FsTree) (f : TFile) (q : FPath)
    (h : q ≠ wp) :
    getFile (setFile t wp f) q = getFile t q := by
  induction wp generalizing t q with
  | nil => rfl
  | cons a rest ih =>
    cases rest with
    | nil =>
      cases t with
      | fileN d => rfl
      | dirN cs =>
        by_cases hAny : (cs.any fun e => e.1 = a) = true
        · rw [setFile_dirN_repl cs a f hAny]
          cases q with
          | nil => rfl
          | cons m qrest =>
            rw [getFile_dirN_cons, getFile_dirN_cons]
            rw [find?_map_name cs _ (fun e => by split <;> rfl) m]
            cases hF : cs.find? (fun e => e.1 = m) with
            | none => rfl
            | some e =>
              dsimp only [Option.map]
              have hname : e.1 = m := by
                have := List.find?_some hF
                simpa using this
              by_cases he : e.1 = a ∧ (!e.2.isDir) = true
              · rw [if_pos he]
                dsimp only
                have hqr : qrest ≠ [] := by
                  intro hq
                  exact h (by rw [hq, ← hname, he.1])
                cases e2 : e.2 with
                | fileN d2 =>
                  cases qrest with
                  | nil => exact absurd rfl hqr
                  | cons b bs => rfl
                | dirN cs2 =>
                  exfalso
                  rw [e2] at he
                  simp [FsTree.isDir] at he
              · rw [if_neg he]
        · rw [setFile_dirN_app cs a f hAny]
          cases q with
          | nil => rfl
          | cons m qrest =>
            rw [getFile_dirN_cons, getFile_dirN_cons, List.find?_append]
            cases hF : cs.find? (fun e => e.1 = m) with
            | none =>
              dsimp only [Option.none_or]
              by_cases hm : m = a
              · subst hm
                simp only [List.find?_cons, decide_True]
                have hqr : qrest ≠ [] := fun hq => h (by rw [hq])
                cases qrest with
                | nil => exact absurd rfl hqr
                | cons b bs => rfl
              · simp only [List.find?_cons]
                have : (decide (a = m)) = false := by
                  simp only [decide_eq_false_iff_not]
                  exact fun hc => hm hc.symm
                rw [this]
                rfl
            | some e => rfl
    | cons a2 rest2 =>
      cases t with
      | fileN d => rfl
      | dirN cs =>
        rw [setFile_dirN_deep]
        cases q with
        | nil => rfl
        | cons m qrest =>
          rw [getFile_dirN_cons, getFile_dirN_cons]
          rw [find?_map_name cs _ (fun e => by split <;> rfl) m]
          cases hF : cs.find? (fun e => e.1 = m) with
          | none => rfl
          | some e =>
            dsimp only [Option.map]
            have hname : e.1 = m := by
              have := List.find?_some hF
              simpa using this
            by_cases he : e.1 = a
            · rw [if_pos he]
              dsimp only
              by_cases hq2 : qrest = a2 :: rest2
              · exact absurd (by rw [hq2, ← hname, he]) h
              · exact ih e.2 qrest hq2
            · rw [if_neg he]

lemma findPresetFilesL_append (pre : FPath) (cs1 cs2 : List (String × FsTree)) :
    findPresetFilesL pre (cs1 ++ cs2) =
      findPresetFilesL pre cs1 ++ findPresetFilesL pre cs2 := by
  induction cs1 with
  | nil => simp [findPresetFilesL]
  | cons e rest ih =>
    match e with
    | (n, t) =>
      rw [List.cons_append]
      simp only [findPresetFilesL]
      rw [ih, List.append_assoc]

mutual
/-- In a duplicate-free tree, every found preset path extends the prefix,
ends in `preset.json`, and resolves to a file. -/
theorem findPresetFilesT_shape (t : FsTree) (pre p : FPath)
    (hnd : nodupNamesT t = true) (h : p ∈ findPresetFilesT pre t) :
    ∃ q, p = pre ++ q ++ ["preset.json"] ∧
      (match t with
       | .dirN cs => q.headD "preset.json" ∈ cs.map (fun e => e.1)
       | .fileN _ => False) ∧
      ∃ d, getFile t (q ++ ["preset.json"]) = some d := by
  cases t with
  | fileN d => exact absurd h (by simp [findPresetFilesT])
  | dirN cs =>
    unfold findPresetFilesT at h
    unfold nodupNamesT at hnd
    rw [Bool.and_eq_true, decide_eq_true_eq] at hnd
    exact findPresetFilesL_shape cs pre p hnd.2 hnd.1 h

theorem findPresetFilesL_shape (cs : List (String × FsTree)) (pre p : FPath)
    (hnd : nodupNamesL cs = true) (hnodup : (cs.map (fun e => e.1)).Nodup)
    (h : p ∈ findPresetFilesL pre cs) :
    ∃ q, p = pre ++ q ++ ["preset.json"] ∧
      q.headD "preset.json" ∈ cs.map (fun e => e.1) ∧
      ∃ d, getFile (.dirN cs) (q ++ ["preset.json"]) = some d := by
  match cs with
  | [] => exact absurd h (by simp [findPresetFilesL])
  | (n, t) :: rest =>
    have hmapcons : (((n, t) :: rest).map (fun e => e.1)) =
        n :: rest.map (fun e => e.1) := rfl
    rw [hmapcons] at hnodup
    have hnodup2 := (List.nodup_cons.mp hnodup).2
    have hnmem := (List.nodup_cons.mp hnodup).1
    unfold findPresetFilesL at h
    unfold nodupNamesL at hnd
    rw [Bool.and_eq_true] at hnd
    rw [List.mem_append] at h
    rcases h with h | h
    · match t, h, hnd with
      | .dirN cs2, h, hnd =>
        obtain ⟨q, hq, _, d, hd⟩ :=
          findPresetFilesT_shape (.dirN cs2) (pre ++ [n]) p hnd.1 h
        refine ⟨n :: q, by simpa using hq, by simp [hmapcons], d, ?_⟩
        rw [List.cons_append, getFile_dirN_cons]
        simp only [List.find?_cons, decide_True]
        exact hd
      | .fileN d, h, hnd =>
        by_cases hn : n = "preset.json"
        · rw [if_pos hn] at h
          simp only [List.mem_singleton] at h
          refine ⟨[], by simpa [hn] using h, by simp [hmapcons, hn], d, ?_⟩
          rw [List.nil_append, getFile_dirN_cons]
          simp only [List.find?_cons, hn, decide_True]
          rfl
        · rw [if_neg hn] at h
          exact absurd h (by simp)
    · obtain ⟨q, hq, hhd, d, hd⟩ := findPresetFilesL_shape rest pre p hnd.2 hnodup2 h
      have hne : ¬ (n = q.headD "preset.json") := by
        intro hc
        rw [hc] at hnmem
        exact hnmem hhd
      refine ⟨q, hq, ?_, d, ?_⟩
      · rw [hmapcons]
        exact List.mem_cons_of_mem _ hhd
      · cases q with
        | nil =>
          rw [List.nil_append, getFile_dirN_cons] at hd ⊢
          rw [List.find?_cons]
          dsimp only
          have hdec : (decide (n = "preset.json")) = false := by
            simp only [decide_eq_false_iff_not]
            exact fun hc => hne (by simpa using hc)
          rw [hdec]
          exact hd
        | cons q0 qrest =>
          rw [List.cons_append, getFile_dirN_cons] at hd ⊢
          rw [List.find?_cons]
          dsimp only
          have hdec : (decide (n = q0)) = false := by
            simp only [decide_eq_false_iff_not]
            exact fun hc => hne (by simpa using hc)
          rw [hdec]
          exact hd
end

/-- Writing `index.json` into a directory does not change which preset files
a recursive scan finds. -/
lemma findPresetFiles_setFile_idx (t : FsTree) (f : TFile) (pre : FPath) :
    findPresetFilesT pre (setFile t ["index.json"] f) = findPresetFilesT pre t := by
  cases t with
  | fileN d => rfl
  | dirN cs =>
    by_cases hAny : (cs.any fun e => e.1 = "index.json") = true
    · rw [setFile_dirN_repl cs _ f hAny]
      clear hAny
      unfold findPresetFilesT
      induction cs with
      | nil => rfl
      | cons e rest ih =>
        obtain ⟨n, t⟩ := e
        rw [List.map_cons]
        by_cases hc : (n, t).1 = "index.json" ∧ (!(n, t).2.isDir) = true
        · rw [if_pos hc]
          have hn : n = "index.json" := hc.1
          cases t with
          | dirN cs2 =>
            exfalso
            have := hc.2
            simp [FsTree.isDir] at this
          | fileN d2 =>
            unfold findPresetFilesL
            rw [ih]
        · rw [if_neg hc]
          unfold findPresetFilesL
          rw [ih]
    · rw [setFile_dirN_app cs _ f hAny]
      unfold findPresetFilesT
      rw [findPresetFilesL_append]
      have hone : findPresetFilesL pre [("index.json", FsTree.fileN f)] = [] := by
        unfold findPresetFilesL
        simp [findPresetFilesL]
      rw [hone, List.append_nil]

mutual
/-- Found preset paths always end in the component `preset.json`. -/
theorem findPresetFilesL_last (cs : List (String × FsTree)) (pre p : FPath)
    (h : p ∈ findPresetFilesL pre cs) : ∃ q, p = q ++ ["preset.json"] := by
  match cs with
  | [] => exact absurd h (by simp [findPresetFilesL])
  | (n, t) :: rest =>
    unfold findPresetFilesL at h
    rw [List.mem_append] at h
    rcases h with h | h
    · match t, h with
      | .dirN cs2, h => exact findPresetFilesT_last (.dirN cs2) (pre ++ [n]) p h
      | .fileN d, h =>
        by_cases hn : n = "preset.json"
        · rw [if_pos hn] at h
          simp only [List.mem_singleton] at h
          exact ⟨pre, by rw [h, hn]⟩
        · rw [if_neg hn] at h
          exact absurd h (by simp)
    · exact findPresetFilesL_last rest pre p h

theorem findPresetFilesT_last (t : FsTree) (pre p : FPath)
    (h : p ∈ findPresetFilesT pre t) : ∃ q, p = q ++ ["preset.json"] := by
  cases t with
  | fileN d => exact absurd h (by simp [findPresetFilesT])
  | dirN cs =>
    unfold findPresetFilesT at h
    exact findPresetFilesL_last cs pre p h
end

lemma preset_path_ne_idx (p : FPath) (q : FPath) (hq : p = q ++ ["preset.json"])
    (wp : FPath) (r : FPath) (hw : wp = r ++ ["index.json"]) : p ≠ wp := by
  intro hc
  rw [hq, hw] at hc
  have h1 : (q ++ ["preset.json"]).getLast? = some "preset.json" := by
    simp
  have h2 : (r ++ ["index.json"]).getLast? = some "index.json" := by
    simp
  rw [hc, h2] at h1
  simp at h1

lemma processLib_fileN (cmp : String → String → Int) (x : TFile) :
    processLib cmp (.fileN x) = ([], 0) := rfl

/-- Writing `index.json` into a library directory does not change its
summarization. -/
lemma processLib_setFile_idx (cmp : String → String → Int) (t : FsTree) (f : TFile) :
    processLib cmp (setFile t ["index.json"] f) = processLib cmp t := by
  unfold processLib
  rw [findPresetFiles_setFile_idx]
  have hfold : ∀ (pfs : List FPath) (acc : List IdxEntry × Nat),
      (∀ p ∈ pfs, ∃ q, p = q ++ ["preset.json"]) →
      (pfs.foldl (presetFoldStep (setFile t ["index.json"] f)) acc) =
      (pfs.foldl (presetFoldStep t) acc) := by
    intro pfs
    induction pfs with
    | nil => intro acc hsh; rfl
    | cons p prest ih =>
      intro acc hsh
      rw [List.foldl_cons, List.foldl_cons]
      obtain ⟨q, hq⟩ := hsh p (by simp)
      have hstep : presetFoldStep (setFile t ["index.json"] f) acc p =
          presetFoldStep t acc p := by
        unfold presetFoldStep
        rw [getFile_setFile_ne _ t f p
          (preset_path_ne_idx p q hq ["index.json"] [] rfl)]
      rw [hstep]
      exact ih _ (fun r hr => hsh r (by simp [hr]))
  dsimp only
  rw [hfold _ _ (fun p hp => findPresetFilesT_last t [] p hp)]

/-- The top-level library listing depends only on child names and kinds. -/
lemma topLevelLibs_congr (cs cs' : List (String × FsTree))
    (h : cs.map (fun e => (e.1, e.2.isDir)) = cs'.map (fun e => (e.1, e.2.isDir))) :
    topLevelLibs cs = topLevelLibs cs' := by
  unfold topLevelLibs
  congr 1
  induction cs generalizing cs' with
  | nil =>
    cases cs' with
    | nil => rfl
    | cons e' r' => simp at h
  | cons e rest ih =>
    cases cs' with
    | nil => simp at h
    | cons e' rest' =>
      simp only [List.map_cons, List.cons.injEq, Prod.mk.injEq] at h
      obtain ⟨⟨hn, hd⟩, hrest⟩ := h
      simp only [List.filter_cons]
      by_cases hf : (e.2.isDir && !(SKIP_DIRS.contains e.1)) = true
      · have hf2 : (e'.2.isDir && !(SKIP_DIRS.contains e'.1)) = true := by
          rw [← hn, ← hd]
          exact hf
        rw [if_pos hf, if_pos hf2, List.map_cons, List.map_cons, hn, ih rest' hrest]
      · have hf2 : ¬ ((e'.2.isDir && !(SKIP_DIRS.contains e'.1)) = true) := by
          rw [← hn, ← hd]
          exact hf
        rw [if_neg hf, if_neg hf2]
        exact ih rest' hrest

lemma topLevelLibs_setFile_repl (cs : List (String × FsTree)) (a : String) (f : TFile) :
    topLevelLibs (cs.map (fun e => if e.1 = a ∧ !e.2.isDir then (e.1, .fileN f) else e)) =
      topLevelLibs cs := by
  apply topLevelLibs_congr
  rw [List.map_map]
  apply List.map_congr_left
  intro e _
  obtain ⟨n, t⟩ := e
  dsimp only [Function.comp]
  by_cases hc : (n, t).1 = a ∧ (!(n, t).2.isDir) = true
  · rw [if_pos hc]
    have hdir : t.isDir = false := by
      have h2 := hc.2
      cases hd : t.isDir with
      | false => rfl
      | true => rw [hd] at h2; simp at h2
    dsimp only
    rw [hdir]
    rfl
  · rw [if_neg hc]

lemma topLevelLibs_setFile_deep (cs : List (String × FsTree)) (a : String)
    (a2 : String) (rest : FPath) (f : TFile) :
    topLevelLibs (cs.map (fun e =>
      if e.1 = a then (e.1, setFile e.2 (a2 :: rest) f) else e)) = topLevelLibs cs := by
  apply topLevelLibs_congr
  rw [List.map_map]
  apply List.map_congr_left
  intro e _
  obtain ⟨n, t⟩ := e
  dsimp only [Function.comp]
  by_cases hc : (n, t).1 = a
  · rw [if_pos hc]
    simp [setFile_isDir]
  · rw [if_neg hc]

lemma topLevelLibs_setFile_app (cs : List (String × FsTree)) (f : TFile) :
    topLevelLibs (cs ++ [("index.json", .fileN f)]) = topLevelLibs cs := by
  unfold topLevelLibs
  congr 1
  rw [List.filter_append]
  have hnil : List.filter (fun e => e.2.isDir && !(SKIP_DIRS.contains e.1))
      [("index.json", FsTree.fileN f)] = [] := by
    simp [FsTree.isDir]
  rw [hnil, List.append_nil]


lemma foldl_congr_mem {σ α : Type _} (f1 f2 : σ → α → σ) (l : List α) :
    (∀ acc x, x ∈ l → f1 acc x = f2 acc x) →
    ∀ acc, l.foldl f1 acc = l.foldl f2 acc := by
  induction l with
  | nil => intro _ acc; rfl
  | cons x rest ih =>
    intro h acc
    rw [List.foldl_cons, List.foldl_cons, h acc x (by simp)]
    exact ih (fun a y hy => h a y (by simp [hy])) _

lemma mem_jsInsertBy {α : Type _} (le : α → α → Bool) (x y : α) (l : List α) :
    y ∈ jsInsertBy le x l ↔ y = x ∨ y ∈ l := by
  induction l with
  | nil => simp [jsInsertBy]
  | cons a rest ih =>
    unfold jsInsertBy
    by_cases h : le x a = true
    · simp [h]
    · simp only [h, Bool.false_eq_true, if_false, List.mem_cons, ih]
      tauto

lemma mem_jsSortBy {α : Type _} (le : α → α → Bool) (y : α) (l : List α) :
    y ∈ jsSortBy le l ↔ y ∈ l := by
  induction l with
  | nil => simp [jsSortBy]
  | cons a rest ih =>
    unfold jsSortBy
    rw [mem_jsInsertBy, ih]
    simp

/-- Every listed top-level library can be looked up among the children. -/
lemma topLevelLibs_find (cs : List (String × FsTree)) (lib : String)
    (h : lib ∈ topLevelLibs cs) : (cs.find? (fun e => e.1 = lib)).isSome := by
  unfold topLevelLibs at h
  rw [mem_jsSortBy] at h
  obtain ⟨e, he, hname⟩ := List.mem_map.mp h
  rw [List.mem_filter] at he
  exact List.find?_isSome.mpr ⟨e, he.1, by simp [hname]⟩

lemma indexerRun_dirN (cmp : String → String → Int) (cs : List (String × FsTree)) :
    indexerRun cmp (.dirN cs) =
      ((((topLevelLibs cs).foldl (libStep cmp cs) ([], [], 0)).1 ++
        [(["index.json"],
          { name := "SongWalker Library"
            description := "Root index — select a source library to browse its presets"
            entries := ((topLevelLibs cs).foldl (libStep cmp cs) ([], [], 0)).2.1 })]),
       ((topLevelLibs cs).foldl (libStep cmp cs) ([], [], 0)).2.2) := rfl

/-- A single index write (at the root or at one library) leaves the whole
indexer output unchanged. -/
lemma indexerRun_setFile_inv (cmp : String → String → Int) (root : FsTree)
    (wp : FPath) (d0 : IndexDoc)
    (hshape : wp = ["index.json"] ∨ ∃ lib0, wp = [lib0, "index.json"]) :
    indexerRun cmp (setFile root wp (.ifile d0)) = indexerRun cmp root := by
  cases root with
  | fileN d =>
    have : setFile (.fileN d) wp (.ifile d0) = .fileN d := by
      cases wp with
      | nil => rfl
      | cons a rest => cases rest <;> rfl
    rw [this]
  | dirN cs =>
    rcases hshape with h | ⟨lib0, h⟩
    · subst h
      by_cases hAny : (cs.any fun e => e.1 = "index.json") = true
      · rw [setFile_dirN_repl cs _ _ hAny]
        rw [indexerRun_dirN, indexerRun_dirN, topLevelLibs_setFile_repl]
        have hstep : ∀ acc lib,
            libStep cmp (cs.map (fun e =>
              if e.1 = "index.json" ∧ !e.2.isDir then (e.1, .fileN (.ifile d0)) else e))
              acc lib = libStep cmp cs acc lib := by
          intro acc lib
          unfold libStep
          rw [find?_map_name cs _ (fun e => by split <;> rfl) lib]
          cases hF : cs.find? (fun e => e.1 = lib) with
          | none => rfl
          | some e =>
            dsimp only [Option.map]
            by_cases he : e.1 = "index.json" ∧ (!e.2.isDir) = true
            · rw [if_pos he]
              cases e2 : e.2 with
              | dirN cs2 =>
                exfalso
                rw [e2] at he
                simp [FsTree.isDir] at he
              | fileN old =>
                dsimp only
                rw [processLib_fileN, processLib_fileN]
            · rw [if_neg he]
        rw [foldl_congr_mem _ _ _ (fun acc x _ => hstep acc x)]
      · rw [setFile_dirN_app cs _ _ hAny]
        rw [indexerRun_dirN, indexerRun_dirN, topLevelLibs_setFile_app]
        have hstep : ∀ acc lib, lib ∈ topLevelLibs cs →
            libStep cmp (cs ++ [("index.json", .fileN (.ifile d0))]) acc lib =
              libStep cmp cs acc lib := by
          intro acc lib hmem
          unfold libStep
          rw [List.find?_append]
          cases hF : cs.find? (fun e => e.1 = lib) with
          | none =>
            exfalso
            have := topLevelLibs_find cs lib hmem
            rw [hF] at this
            simp at this
          | some e => rfl
        rw [foldl_congr_mem _ _ _ hstep]
    · subst h
      rw [setFile_dirN_deep]
      rw [indexerRun_dirN, indexerRun_dirN, topLevelLibs_setFile_deep]
      have hstep : ∀ acc lib,
          libStep cmp (cs.map (fun e =>
            if e.1 = lib0 then (e.1, setFile e.2 ["index.json"] (.ifile d0)) else e))
            acc lib = libStep cmp cs acc lib := by
        intro acc lib
        unfold libStep
        rw [find?_map_name cs _ (fun e => by split <;> rfl) lib]
        cases hF : cs.find? (fun e => e.1 = lib) with
        | none => rfl
        | some e =>
          dsimp only [Option.map]
          by_cases he : e.1 = lib0
          · rw [if_pos he]
            dsimp only
            rw [processLib_setFile_idx]
          · rw [if_neg he]
      rw [foldl_congr_mem _ _ _ (fun acc x _ => hstep acc x)]

/-- Every path the indexer writes is the root `index.json` or some library's
`index.json`. -/
lemma indexerRun_write_shapes (cmp : String → String → Int) (root : FsTree) :
    ∀ w ∈ (indexerRun cmp root).1,
      w.1 = ["index.json"] ∨ ∃ lib, w.1 = [lib, "index.json"] := by
  cases root with
  | fileN d => intro w hw; exact absurd hw (by simp [indexerRun])
  | dirN cs =>
    rw [indexerRun_dirN]
    have hfold : ∀ (libs : List String)
        (acc : List (FPath × IndexDoc) × List IdxEntry × Nat),
        (∀ w ∈ acc.1, w.1 = ["index.json"] ∨ ∃ lib, w.1 = [lib, "index.json"]) →
        ∀ w ∈ (libs.foldl (libStep cmp cs) acc).1,
          w.1 = ["index.json"] ∨ ∃ lib, w.1 = [lib, "index.json"] := by
      intro libs
      induction libs with
      | nil => intro acc hacc w hw; exact hacc w hw
      | cons lib rest ih =>
        intro acc hacc w hw
        rw [List.foldl_cons] at hw
        refine ih _ ?_ w hw
        intro w2 hw2
        unfold libStep at hw2
        cases hF : cs.find? (fun e => e.1 = lib) with
        | none =>
          rw [hF] at hw2
          exact hacc w2 hw2
        | some e =>
          rw [hF] at hw2
          dsimp only at hw2
          rw [List.mem_append] at hw2
          rcases hw2 with hw2 | hw2
          · exact hacc w2 hw2
          · simp only [List.mem_singleton] at hw2
            subst hw2
            exact Or.inr ⟨lib, rfl⟩
    intro w hw
    rw [List.mem_append] at hw
    rcases hw with hw | hw
    · exact hfold (topLevelLibs cs) ([], [], 0) (by simp) w hw
    · simp only [List.mem_singleton] at hw
      subst hw
      exact Or.inl rfl

lemma indexerRun_applyWrites_inv (cmp : String → String → Int)
    (ws : List (FPath × IndexDoc))
    (hsh : ∀ w ∈ ws, w.1 = ["index.json"] ∨ ∃ lib, w.1 = [lib, "index.json"]) :
    ∀ t, indexerRun cmp (applyWrites t ws) = indexerRun cmp t := by
  induction ws with
  | nil => intro t; rfl
  | cons w rest ih =>
    intro t
    unfold applyWrites
    rw [List.foldl_cons]
    have h1 : (rest.foldl (fun a w => setFile a w.1 (.ifile w.2))
        (setFile t w.1 (.ifile w.2))) = applyWrites (setFile t w.1 (.ifile w.2)) rest := rfl
    rw [h1, ih (fun w2 hw2 => hsh w2 (by simp [hw2]))]
    exact indexerRun_setFile_inv cmp t w.1 w.2 (hsh w (by simp))

/-- C8: running the indexer a second time on the tree produced by the first
run — the same tree with the per-library and root `index.json` documents
written back — yields exactly the same index documents and error count: the
indexer is deterministic and idempotent. -/
theorem claim_C8_indexer_idempotent (cmp : String → String → Int) (root : FsTree)
    (hwf : treeWF root = true) :
    indexerRun cmp (applyWrites root (indexerRun cmp root).1) =
      indexerRun cmp root :=
  indexerRun_applyWrites_inv cmp (indexerRun cmp root).1
    (indexerRun_write_shapes cmp root) root

/-- Witness for C8 on a concrete two-library tree (one preset, one parse
error, one skipped tooling directory). -/
theorem claim_C8_indexer_idempotent_witness :
    let cmp : String → String → Int := fun a b => if charListLE a.toList b.toList then
      (if charListLE b.toList a.toList then 0 else -1) else 1
    let pd : PresetDoc :=
      { name := some "Piano", category := some "sampler", tags := some ["melodic"],
        gmProgram := some 0,
        node := some (.sampler (some [⟨some (21, 108)⟩, ⟨none⟩])), graph := none }
    let root : FsTree :=
      .dirN [("LibB", .dirN [("X", .dirN [("preset.json", .fileN (.pfile (some pd)))]),
                             ("bad", .dirN [("preset.json", .fileN (.pfile none))])]),
             ("scripts", .dirN []),
             ("LibA", .dirN [])]
    indexerRun cmp (applyWrites root (indexerRun cmp root).1) =
      indexerRun cmp root := by
  intro cmp pd root
  exact claim_C8_indexer_idempotent cmp root (by decide)

/-! ## C5 — every index path resolves -/

lemma dropLast_append_two (l : FPath) (a b : String) :
    (l ++ [a, b]).dropLast = l ++ [a] := by
  have h : l ++ [a, b] = (l ++ [a]) ++ [b] := by simp
  rw [h, List.dropLast_concat]

lemma pickLib_ne_nil (core : List Char) (lb : List Char)
    (h : pickLib core = some lb) : lb ≠ [] := by
  unfold pickLib at h
  dsimp only at h
  cases hH : (((if endsWithL "_sf2_file".toList core then [core.length - 9] else []) ++
      (if endsWithL "_sf2".toList core then [core.length - 4] else []) ++
      [core.length]).filter
      (fun k => decide (1 ≤ k ∧ k ≤ (core.takeWhile (fun c => !(isLineTerm c))).length))).head? with
  | none => rw [hH] at h; exact absurd h (by simp)
  | some k =>
    rw [hH] at h
    simp only [Option.map_some', Option.some.injEq] at h
    have hmem : k ∈ (((if endsWithL "_sf2_file".toList core then [core.length - 9] else []) ++
        (if endsWithL "_sf2".toList core then [core.length - 4] else []) ++
        [core.length]).filter
        (fun k => decide (1 ≤ k ∧ k ≤ (core.takeWhile (fun c => !(isLineTerm c))).length))) :=
      List.mem_of_mem_head? (by rw [hH]; simp)
    have hpred := (List.mem_filter.mp hmem).2
    simp only [decide_eq_true_eq] at hpred
    have h1 : 1 ≤ k := hpred.1
    have h2 : k ≤ core.length := le_trans hpred.2
      (List.takeWhile_prefix (fun c => !(isLineTerm c))).length_le
    rw [← h]
    intro hc
    rw [List.take_eq_nil_iff] at hc
    rcases hc with hc | hc
    · omega
    · rw [hc] at h2
      simp at h2
      omega

lemma safeLibOf_ne_empty (s : String) (h : s.toList ≠ []) : safeLibOf s ≠ "" := by
  unfold safeLibOf
  intro hc
  have hdata : (String.mk (s.toList.map
      (fun c => if c.isAlpha || c.isDigit then c else '_'))).data = ("" : String).data := by
    rw [hc]
  simp only [String.data] at hdata
  rw [List.map_eq_nil_iff] at hdata
  exact h hdata

lemma writtenPaths_append (a b : List FsEvent) :
    writtenPaths (a ++ b) = writtenPaths a ++ writtenPaths b := by
  unfold writtenPaths
  rw [List.filterMap_append]

lemma drop_len_succ (o : FPath) (s : String) (r : List String) :
    (o ++ s :: r).drop (o.length + 1) = r := by
  induction o with
  | nil => simp
  | cons a o ih => simp [ih]

lemma pjoin_cons_decomp (o : FPath) (s : String) (rest : List String)
    (h : s ≠ "") :
    pjoin o (s :: rest) = o ++ [s] ++ (pjoin o (s :: rest)).drop (o.length + 1) := by
  unfold pjoin
  rw [List.filter_cons, if_pos (by simpa using h), drop_len_succ]
  simp

lemma presetDirOf_decomp (o : FPath) (isP : Bool) (cat slib snm : String)
    (h : slib ≠ "") :
    presetDirOf o isP cat slib snm =
      o ++ [slib] ++ (presetDirOf o isP cat slib snm).drop (o.length + 1) := by
  unfold presetDirOf
  cases isP with
  | true => simpa using pjoin_cons_decomp o slib ["percussion", "individual", snm] h
  | false => simpa using pjoin_cons_decomp o slib ["instruments", cat, snm] h

lemma parseInstrumentFilename_lib (fn : List Char) (info : MelInfo)
    (h : parseInstrumentFilename fn = some info) : safeLibOf info.library ≠ "" := by
  unfold parseInstrumentFilename at h
  split at h
  · split at h
    · split at h
      · split at h
        · rename_i lb hP
          simp only [Option.some.injEq] at h
          subst h
          exact safeLibOf_ne_empty _ (pickLib_ne_nil _ _ hP)
        · exact absurd h (by simp)
      · exact absurd h (by simp)
    · exact absurd h (by simp)
  · exact absurd h (by simp)

lemma parsePercussionFilename_lib (fn : List Char) (info : PercInfo)
    (h : parsePercussionFilename fn = some info) : safeLibOf info.library ≠ "" := by
  unfold parsePercussionFilename at h
  dsimp only at h
  split at h
  · exact absurd h (by simp)
  · split at h
    · split at h
      · split at h
        · exact absurd h (by simp)
        · split at h
          · split at h
            · split at h
              · split at h
                · rename_i lb hP
                  simp only [Option.some.injEq] at h
                  subst h
                  exact safeLibOf_ne_empty _ (pickLib_ne_nil _ _ hP)
                · exact absurd h (by simp)
              · exact absurd h (by simp)
            · exact absurd h (by simp)
          · exact absurd h (by simp)
      · exact absurd h (by simp)
    · exact absurd h (by simp)

lemma extractAudio_events_idx (cfg : Cfg) (z : InZone) (dir : FPath)
    (nn : String) (dd : Dedup) :
    ∀ p d, FsEvent.writeE p (.indexF d) ∉ (extractAudio cfg z dir nn dd).2.2 := by
  intro p d
  unfold extractAudio
  split
  · simp
  · dsimp only
    split <;> simp

lemma convertZone_events_idx (cfg : Cfg) (z : InZone) (dir : FPath) (dd : Dedup) :
    ∀ p d, FsEvent.writeE p (.indexF d) ∉ (convertZone cfg z dir dd).2.2 := by
  intro p d
  unfold convertZone
  dsimp only
  split
  · next _ _ heq =>
    have := extractAudio_events_idx cfg z dir (midiToNoteName (normalizePitch z).1) dd p d
    rw [heq] at this
    exact this
  · next _ _ _ heq =>
    have := extractAudio_events_idx cfg z dir (midiToNoteName (normalizePitch z).1) dd p d
    rw [heq] at this
    exact this

lemma convertZonesLoop_events_idx (cfg : Cfg) (zones : List InZone)
    (dir : FPath) (dd : Dedup) :
    ∀ p d, FsEvent.writeE p (.indexF d) ∉ (convertZonesLoop cfg zones dir dd).2.2 := by
  suffices hgen : ∀ (acc : List OutZone × Dedup × List FsEvent) p d,
      FsEvent.writeE p (.indexF d) ∉ acc.2.2 →
      FsEvent.writeE p (.indexF d) ∉
        (zones.foldl
          (fun acc z =>
            match convertZone cfg z dir acc.2.1 with
            | (none, dd1, evs) => (acc.1, dd1, acc.2.2 ++ evs)
            | (some oz, dd1, evs) => (acc.1 ++ [oz], dd1, acc.2.2 ++ evs))
          acc).2.2 by
    intro p d
    exact hgen ([], dd, []) p d (by simp)
  induction zones with
  | nil => intro acc p d h; exact h
  | cons z zs ih =>
    intro acc p d h
    rw [List.foldl_cons]
    have hz := convertZone_events_idx cfg z dir acc.2.1 p d
    cases hcz : convertZone cfg z dir acc.2.1 with
    | mk r1 r2 =>
      rw [hcz] at hz
      cases r1 with
      | none =>
        refine ih _ p d ?_
        simp only [List.mem_append]
        rintro (hc | hc)
        · exact h hc
        · exact hz hc
      | some oz =>
        refine ih _ p d ?_
        simp only [List.mem_append]
        rintro (hc | hc)
        · exact h hc
        · exact hz hc

lemma convertInstrument_events_idx (cfg : Cfg) (inst : Instrument) (gm : Nat)
    (nm lib : String) (var : Nat) (dd : Dedup) :
    ∀ p d, FsEvent.writeE p (.indexF d) ∉
      (convertInstrument cfg inst gm nm lib var dd).2.2 := by
  intro p d
  unfold convertInstrument
  by_cases hz : inst.zones = []
  · rw [if_pos hz]
    simp
  · rw [if_neg hz]
    dsimp only
    have hloop := convertZonesLoop_events_idx cfg inst.zones
      (presetDirOf cfg.outDir (isPercussionOf inst.zones)
        (categoryOf (isPercussionOf inst.zones) gm) (safeLibOf lib) (safeNameOf nm))
      dd p d
    split
    · dsimp only
      simp only [List.mem_append]
      rintro (hc | hc)
      · cases hdr : cfg.dryRun <;> rw [hdr] at hc <;> simp at hc
      · exact hloop hc
    · dsimp only
      simp only [List.mem_append]
      rintro ((hc | hc) | hc)
      · cases hdr : cfg.dryRun <;> rw [hdr] at hc <;> simp at hc
      · exact hloop hc
      · cases hdr : cfg.dryRun <;> rw [hdr] at hc <;> simp at hc

/-- A successful non-dry `convertInstrument` writes the preset document at
exactly the path its catalog entry records relative to
`OUTPUT_DIR/{library}`. -/
lemma convertInstrument_entry_resolves (cfg : Cfg) (inst : Instrument) (gm : Nat)
    (nm lib : String) (var : Nat) (dd : Dedup) (entry : CEntry) (dd1 : Dedup)
    (evs : List FsEvent)
    (hdry : cfg.dryRun = false) (hlib : safeLibOf lib ≠ "")
    (h : convertInstrument cfg inst gm nm lib var dd = (some entry, dd1, evs)) :
    entry.library = safeLibOf lib ∧
    (cfg.outDir ++ [entry.library] ++ entry.path) ∈ writtenPaths evs := by
  unfold convertInstrument at h
  by_cases hz : inst.zones = []
  · rw [if_pos hz] at h
    exact absurd h (by simp)
  · rw [if_neg hz] at h
    dsimp only at h
    split at h
    · exact absurd h (by simp)
    · rw [hdry] at h
      simp only [Bool.false_eq_true, if_false, Option.some.injEq, Prod.mk.injEq] at h
      obtain ⟨he, _, hevs⟩ := h
      subst he
      subst hevs
      refine ⟨rfl, ?_⟩
      dsimp only
      have hq : ∀ (A B : List FsEvent) (q : FPath) (x : FData),
          q ∈ writtenPaths (A ++ B ++ [FsEvent.writeE q x]) := by
        intro A B q x
        simp [writtenPaths, List.filterMap_append]
      have hdir := presetDirOf_decomp cfg.outDir (isPercussionOf inst.zones)
        (categoryOf (isPercussionOf inst.zones) gm) (safeLibOf lib) (safeNameOf nm) hlib
      rw [← List.append_assoc, ← hdir]
      exact hq _ _ _ _

/-- The invariant of `main`'s conversion loops: no index file has been
written yet, and every cataloged entry's relative path points at a file
already written under `OUTPUT_DIR/{library}`. -/
def C5Inv (o : FPath) (st : MainSt) : Prop :=
  (∀ p d, FsEvent.writeE p (.indexF d) ∉ st.events) ∧
  ∀ g ∈ st.entriesByLibrary, ∀ e ∈ g.2,
    e.library = g.1 ∧ (o ++ [g.1] ++ e.path) ∈ writtenPaths st.events

lemma pushEntry_mem (m : List (String × List CEntry)) (lib : String)
    (x : CEntry) :
    ∀ g ∈ pushEntry m lib x, ∀ e ∈ g.2,
      (∃ g0 ∈ m, g0.1 = g.1 ∧ e ∈ g0.2) ∨ (g.1 = lib ∧ e = x) := by
  intro g hg e he
  unfold pushEntry at hg
  split at hg
  · obtain ⟨g0, hg0, hmap⟩ := List.mem_map.mp hg
    by_cases h0 : g0.1 = lib
    · rw [if_pos h0] at hmap
      subst hmap
      rw [List.mem_append, List.mem_singleton] at he
      rcases he with he | he
      · exact Or.inl ⟨g0, hg0, rfl, he⟩
      · exact Or.inr ⟨h0, he⟩
    · rw [if_neg h0] at hmap
      subst hmap
      exact Or.inl ⟨g0, hg0, rfl, he⟩
  · rw [List.mem_append, List.mem_singleton] at hg
    rcases hg with hg | hg
    · exact Or.inl ⟨g, hg, rfl, he⟩
    · subst hg
      rw [List.mem_singleton] at he
      exact Or.inr ⟨rfl, he⟩

lemma foldl_pres {σ α : Type _} {P : σ → Prop} (f : σ → α → σ) (l : List α)
    (hstep : ∀ s a, P s → P (f s a)) :
    ∀ s, P s → P (l.foldl f s) := by
  induction l with
  | nil => intro s h; exact h
  | cons a rest ih =>
    intro s h
    rw [List.foldl_cons]
    exact ih (f s a) (hstep s a h)

lemma c5inv_extend (o : FPath) (st : MainSt) (dd1 : Dedup) (evs : List FsEvent)
    (hinv : C5Inv o st)
    (hevs : ∀ p d, FsEvent.writeE p (.indexF d) ∉ evs) :
    C5Inv o { st with dedup := dd1, events := st.events ++ evs } := by
  refine ⟨?_, ?_⟩
  · intro p d hc
    dsimp only at hc
    rw [List.mem_append] at hc
    rcases hc with hc | hc
    · exact hinv.1 p d hc
    · exact hevs p d hc
  · intro g hg e he
    obtain ⟨h1, h2⟩ := hinv.2 g hg e he
    refine ⟨h1, ?_⟩
    dsimp only
    rw [writtenPaths_append, List.mem_append]
    exact Or.inl h2

lemma c5inv_push (o : FPath) (st : MainSt) (dd1 : Dedup) (evs : List FsEvent)
    (entry : CEntry) (hinv : C5Inv o st)
    (hevs : ∀ p d, FsEvent.writeE p (.indexF d) ∉ evs)
    (hres : o ++ [entry.library] ++ entry.path ∈ writtenPaths evs) :
    C5Inv o { st with
              dedup := dd1
              events := st.events ++ evs
              entriesByLibrary := pushEntry st.entriesByLibrary entry.library entry
              convertedCount := st.convertedCount + 1 } := by
  refine ⟨?_, ?_⟩
  · intro p d hc
    dsimp only at hc
    rw [List.mem_append] at hc
    rcases hc with hc | hc
    · exact hinv.1 p d hc
    · exact hevs p d hc
  · intro g hg e he
    dsimp only at hg ⊢
    rcases pushEntry_mem st.entriesByLibrary entry.library entry g hg e he with
      ⟨g0, hg0, hname, he0⟩ | ⟨hname, he0⟩
    · obtain ⟨h1, h2⟩ := hinv.2 g0 hg0 e he0
      refine ⟨h1.trans hname, ?_⟩
      rw [writtenPaths_append, List.mem_append]
      exact Or.inl (hname ▸ h2)
    · subst he0
      refine ⟨hname.symm, ?_⟩
      rw [writtenPaths_append, List.mem_append]
      rw [hname]
      exact Or.inr hres

lemma stepI_c5 (l : Option Nat) (o : FPath) (names : List String)
    (st : MainSt) (f : InstrFile) (hinv : C5Inv o st) :
    C5Inv o (stepI ⟨false, l, o⟩ names st f) := by
  unfold stepI
  dsimp only
  split
  · exact hinv
  · cases hP : parseInstrumentFilename f.fname with
    | none => exact hinv
    | some info =>
      by_cases hgm : 128 ≤ info.gmProgram
      · simp only [if_pos hgm]
        exact hinv
      · simp only [if_neg hgm]
        cases hp : f.parsed with
        | none =>
          dsimp only
          exact ⟨hinv.1, hinv.2⟩
        | some inst =>
          dsimp only
          cases hC : convertInstrument ⟨false, l, o⟩ inst info.gmProgram
              (cleanNameOf (jsOrStr (names.get? info.gmProgram)
                (let g := info.gmProgram
                 s!"Program {g}"))) info.library info.variant st.dedup with
          | mk r1 r2 =>
            cases r1 with
            | none =>
              dsimp only
              refine c5inv_extend o st r2.1 r2.2 hinv ?_
              intro p d hc
              have := convertInstrument_events_idx ⟨false, l, o⟩ inst info.gmProgram
                (cleanNameOf (jsOrStr (names.get? info.gmProgram)
                  (let g := info.gmProgram
                   s!"Program {g}"))) info.library info.variant st.dedup p d
              rw [hC] at this
              exact this hc
            | some entry =>
              dsimp only
              have hlib := parseInstrumentFilename_lib f.fname info hP
              have hres := convertInstrument_entry_resolves ⟨false, l, o⟩ inst
                info.gmProgram
                (cleanNameOf (jsOrStr (names.get? info.gmProgram)
                  (let g := info.gmProgram
                   s!"Program {g}"))) info.library info.variant st.dedup entry
                r2.1 r2.2 rfl hlib hC
              refine c5inv_push o st r2.1 r2.2 entry hinv ?_ hres.2
              intro p d hc
              have := convertInstrument_events_idx ⟨false, l, o⟩ inst info.gmProgram
                (cleanNameOf (jsOrStr (names.get? info.gmProgram)
                  (let g := info.gmProgram
                   s!"Program {g}"))) info.library info.variant st.dedup p d
              rw [hC] at this
              exact this hc

lemma stepP_c5 (l : Option Nat) (o : FPath)
    (st : MainSt) (f : InstrFile) (hinv : C5Inv o st) :
    C5Inv o (stepP ⟨false, l, o⟩ st f) := by
  unfold stepP
  dsimp only
  split
  · exact hinv
  · cases hP : parsePercussionFilename f.fname with
    | none => exact hinv
    | some info =>
      cases hp : f.parsed with
      | none =>
        dsimp only
        exact ⟨hinv.1, hinv.2⟩
      | some inst =>
        dsimp only
        cases hC : convertInstrument ⟨false, l, o⟩ inst 128
            (let nn := midiToNoteName (info.midiNote : Int)
             let mn := info.midiNote
             s!"Percussion_{nn}_{mn}") info.library info.variant st.dedup with
        | mk r1 r2 =>
          cases r1 with
          | none =>
            dsimp only
            refine c5inv_extend o st r2.1 r2.2 hinv ?_
            intro p d hc
            have := convertInstrument_events_idx ⟨false, l, o⟩ inst 128
              (let nn := midiToNoteName (info.midiNote : Int)
               let mn := info.midiNote
               s!"Percussion_{nn}_{mn}") info.library info.variant st.dedup p d
            rw [hC] at this
            exact this hc
          | some entry =>
            dsimp only
            have hlib := parsePercussionFilename_lib f.fname info hP
            have hres := convertInstrument_entry_resolves ⟨false, l, o⟩ inst 128
              (let nn := midiToNoteName (info.midiNote : Int)
               let mn := info.midiNote
               s!"Percussion_{nn}_{mn}") info.library info.variant st.dedup entry
              r2.1 r2.2 rfl hlib hC
            refine c5inv_push o st r2.1 r2.2
              { entry with tags := ["percussion",
                  (let mn := info.midiNote
                   s!"midi:{mn}")] } hinv ?_ hres.2
            intro p d hc
            have := convertInstrument_events_idx ⟨false, l, o⟩ inst 128
              (let nn := midiToNoteName (info.midiNote : Int)
               let mn := info.midiNote
               s!"Percussion_{nn}_{mn}") info.library info.variant st.dedup p d
            rw [hC] at this
            exact this hc

lemma dropLast_append_one (lst : FPath) (a : String) :
    (lst ++ [a]).dropLast = lst := by simp

lemma mainLoopSt_c5 (l : Option Nat) (o : FPath) (names : List String)
    (src : SourceData) : C5Inv o (mainLoopSt ⟨false, l, o⟩ names src) := by
  unfold mainLoopSt
  dsimp only
  have h0 : C5Inv o ⟨{}, [FsEvent.mkdirE o], [], 0, 0⟩ := by
    refine ⟨?_, ?_⟩
    · intro p d hc
      simp at hc
    · intro g hg
      simp at hg
  cases hpf : src.pFiles with
  | none =>
    cases hif : src.iFiles with
    | none => exact h0
    | some fs => exact foldl_pres _ _ (stepI_c5 l o names) _ h0
  | some fs2 =>
    cases hif : src.iFiles with
    | none => exact foldl_pres _ _ (stepP_c5 l o) _ h0
    | some fs =>
      exact foldl_pres _ _ (stepP_c5 l o) _
        (foldl_pres _ _ (stepI_c5 l o names) _ h0)

lemma libIndexEvs_false (l : Option Nat) (o : FPath) (st2 : MainSt) :
    libIndexEvs ⟨false, l, o⟩ st2 =
      st2.entriesByLibrary.map
        (fun g => .writeE (o ++ [g.1, "index.json"])
          (.indexF (convLibraryIndex g.1 g.2))) := rfl

lemma rootIndexEvs_false (l : Option Nat) (o : FPath) (st2 : MainSt) :
    rootIndexEvs ⟨false, l, o⟩ st2 =
      [.writeE (o ++ ["index.json"]) (.indexF (convRootIndex st2))] := rfl

/-- Converter half of C5: every entry of every index document the converter
writes resolves, relative to the index's directory, to a path the run has
written. -/
lemma converter_c5 (l : Option Nat) (o : FPath) (src : SourceData) :
    ∀ p d, FsEvent.writeE p (.indexF d) ∈ (runConverter ⟨false, l, o⟩ src).events →
      ∀ ent ∈ d.entries,
        p.dropLast ++ ent.path ∈
          writtenPaths (runConverter ⟨false, l, o⟩ src).events := by
  intro p d hmem ent hent
  unfold runConverter at hmem ⊢
  cases hn : src.names with
  | none =>
    rw [hn] at hmem
    simp at hmem
  | some names =>
    rw [hn] at hmem
    dsimp only at hmem ⊢
    have hinv := mainLoopSt_c5 l o names src
    rw [List.mem_append, List.mem_append] at hmem
    rcases hmem with (hmem | hmem) | hmem
    · exact absurd hmem (hinv.1 p d)
    · rw [libIndexEvs_false] at hmem
      obtain ⟨g, hg, hev⟩ := List.mem_map.mp hmem
      simp only [FsEvent.writeE.injEq, FData.indexF.injEq] at hev
      obtain ⟨hp, hd⟩ := hev
      subst hp
      subst hd
      simp only [convLibraryIndex] at hent
      obtain ⟨e, he, hee⟩ := List.mem_map.mp hent
      obtain ⟨hlib, hres⟩ := hinv.2 g hg e he
      rw [dropLast_append_two]
      rw [← hee]
      show o ++ [g.1] ++ e.path ∈ _
      rw [writtenPaths_append, writtenPaths_append, List.mem_append, List.mem_append]
      exact Or.inl (Or.inl hres)
    · rw [rootIndexEvs_false, List.mem_singleton] at hmem
      simp only [FsEvent.writeE.injEq, FData.indexF.injEq] at hmem
      obtain ⟨hp, hd⟩ := hmem
      subst hp
      subst hd
      simp only [convRootIndex] at hent
      obtain ⟨g, hg, hee⟩ := List.mem_map.mp hent
      rw [dropLast_append_one]
      rw [← hee]
      show o ++ [g.1, "index.json"] ∈ _
      rw [writtenPaths_append, writtenPaths_append, List.mem_append, List.mem_append]
      refine Or.inl (Or.inr ?_)
      rw [libIndexEvs_false]
      unfold writtenPaths
      exact List.mem_filterMap.mpr
        ⟨.writeE (o ++ [g.1, "index.json"]) (.indexF (convLibraryIndex g.1 g.2)),
         List.mem_map.mpr ⟨g, hg, rfl⟩, rfl⟩

lemma getFile_applyWrites_ne (ws : List (FPath × IndexDoc)) (t : FsTree)
    (q : FPath) (h : ∀ w ∈ ws, q ≠ w.1) :
    getFile (applyWrites t ws) q = getFile t q := by
  induction ws generalizing t with
  | nil => rfl
  | cons w rest ih =>
    have happ : applyWrites t (w :: rest) =
        applyWrites (setFile t w.1 (.ifile w.2)) rest := rfl
    rw [happ, ih _ (fun w2 hw2 => h w2 (List.mem_cons_of_mem w hw2))]
    exact getFile_setFile_ne w.1 t (.ifile w.2) q (h w (List.mem_cons_self w rest))

lemma nodupNamesL_mem (cs : List (String × FsTree)) (e : String × FsTree)
    (hnd : nodupNamesL cs = true) (hmem : e ∈ cs) : nodupNamesT e.2 = true := by
  induction cs with
  | nil => simp at hmem
  | cons e0 rest ih =>
    unfold nodupNamesL at hnd
    rw [Bool.and_eq_true] at hnd
    rw [List.mem_cons] at hmem
    rcases hmem with hmem | hmem
    · subst hmem
      exact hnd.1
    · exact ih hnd.2 hmem

lemma find?_eq_of_nodup (cs : List (String × FsTree)) (n : String) (t : FsTree)
    (hnd : (cs.map (fun e => e.1)).Nodup) (hmem : (n, t) ∈ cs) :
    cs.find? (fun e => e.1 = n) = some (n, t) := by
  induction cs with
  | nil => simp at hmem
  | cons e rest ih =>
    rw [List.map_cons, List.nodup_cons] at hnd
    rw [List.mem_cons] at hmem
    by_cases he : e.1 = n
    · rw [List.find?_cons_of_pos _ (by simpa using he)]
      rcases hmem with hmem | hmem
      · rw [hmem]
      · exact absurd (List.mem_map.mpr ⟨(n, t), hmem, he.symm⟩) hnd.1
    · rw [List.find?_cons_of_neg _ (by simpa using he)]
      rcases hmem with hmem | hmem
      · exact absurd (by rw [← hmem] : e.1 = n) he
      · exact ih hnd.2 hmem

/-- The writable spot for a library index: the tree is a directory whose
(unique) child named `lib` is a directory holding no directory named
`index.json`. -/
def GoodFor (t : FsTree) (lib : String) : Prop :=
  ∃ cs cs2, t = .dirN cs ∧
    cs.find? (fun e => e.1 = lib) = some (lib, .dirN cs2) ∧
    noIndexDir cs2 = true

/-- Writing `{lib}/index.json` into a `GoodFor` tree makes the file
readable at that path. -/
lemma GoodFor_setFile_write (t : FsTree) (lib : String) (f : TFile)
    (hg : GoodFor t lib) :
    getFile (setFile t [lib, "index.json"] f) [lib, "index.json"] = some f := by
  obtain ⟨cs, cs2, ht, hfind, hnoidx⟩ := hg
  subst ht
  rw [setFile_dirN_deep, getFile_dirN_cons]
  rw [find?_map_name cs _ (fun e => by split <;> rfl) lib, hfind]
  dsimp only [Option.map]
  rw [if_pos rfl]
  dsimp only
  by_cases hAny : (cs2.any fun e => e.1 = "index.json") = true
  · rw [setFile_dirN_repl cs2 "index.json" f hAny]
    rw [getFile_dirN_cons]
    rw [find?_map_name cs2 _ (fun e => by split <;> rfl) "index.json"]
    cases hF : cs2.find? (fun e => e.1 = "index.json") with
    | none =>
      exfalso
      rw [List.find?_eq_none] at hF
      rw [List.any_eq_true] at hAny
      obtain ⟨e, he, hee⟩ := hAny
      exact absurd hee (by simpa using hF e he)
    | some e0 =>
      dsimp only [Option.map]
      have hname : e0.1 = "index.json" := by simpa using List.find?_some hF
      have hmem0 := List.mem_of_find?_eq_some hF
      have hdir : e0.2.isDir = false := by
        unfold noIndexDir at hnoidx
        rw [List.all_eq_true] at hnoidx
        have h1 := hnoidx e0 hmem0
        simpa [hname] using h1
      rw [if_pos ⟨hname, by simp [hdir]⟩]
      rfl
  · rw [setFile_dirN_app cs2 "index.json" f hAny]
    rw [getFile_dirN_cons, List.find?_append]
    have hF : cs2.find? (fun e => e.1 = "index.json") = none := by
      rw [List.find?_eq_none]
      intro e he
      rw [Bool.not_eq_true, List.any_eq_false] at hAny
      exact hAny e he
    rw [hF]
    dsimp only [Option.none_or]
    simp only [List.find?_cons, decide_True]
    rfl

/-- Index writes (root or per-library) keep a library spot writable. -/
lemma GoodFor_setFile (t : FsTree) (lib : String) (f : TFile) (wp : FPath)
    (hne : lib ≠ "index.json")
    (hshape : wp = ["index.json"] ∨ ∃ lib0, wp = [lib0, "index.json"])
    (hg : GoodFor t lib) : GoodFor (setFile t wp f) lib := by
  obtain ⟨cs, cs2, ht, hfind, hnoidx⟩ := hg
  subst ht
  rcases hshape with hs | ⟨lib0, hs⟩
  · subst hs
    by_cases hAny : (cs.any fun e => e.1 = "index.json") = true
    · rw [setFile_dirN_repl cs "index.json" f hAny]
      refine ⟨_, cs2, rfl, ?_, hnoidx⟩
      rw [find?_map_name cs _ (fun e => by split <;> rfl) lib, hfind]
      dsimp only [Option.map]
      rw [if_neg (fun hc => hne hc.1)]
    · rw [setFile_dirN_app cs "index.json" f hAny]
      refine ⟨_, cs2, rfl, ?_, hnoidx⟩
      rw [List.find?_append, hfind]
      rfl
  · subst hs
    rw [setFile_dirN_deep]
    by_cases hl : lib = lib0
    · subst hl
      by_cases hAny2 : (cs2.any fun e => e.1 = "index.json") = true
      · refine ⟨_, cs2.map (fun e =>
          if e.1 = "index.json" ∧ !e.2.isDir then (e.1, .fileN f) else e),
          rfl, ?_, ?_⟩
        · rw [find?_map_name cs _ (fun e => by split <;> rfl) lib, hfind]
          dsimp only [Option.map]
          rw [if_pos rfl]
          rw [setFile_dirN_repl cs2 "index.json" f hAny2]
        · unfold noIndexDir at hnoidx ⊢
          rw [List.all_eq_true] at hnoidx ⊢
          intro e he
          obtain ⟨e0, he0, hmap⟩ := List.mem_map.mp he
          by_cases hc : e0.1 = "index.json" ∧ (!e0.2.isDir) = true
          · rw [if_pos hc] at hmap
            subst hmap
            simp [FsTree.isDir]
          · rw [if_neg hc] at hmap
            subst hmap
            exact hnoidx e0 he0
      · refine ⟨_, cs2 ++ [("index.json", .fileN f)], rfl, ?_, ?_⟩
        · rw [find?_map_name cs _ (fun e => by split <;> rfl) lib, hfind]
          dsimp only [Option.map]
          rw [if_pos rfl]
          rw [setFile_dirN_app cs2 "index.json" f hAny2]
        · unfold noIndexDir at hnoidx ⊢
          rw [List.all_eq_true] at hnoidx ⊢
          intro e he
          rw [List.mem_append, List.mem_singleton] at he
          rcases he with he | he
          · exact hnoidx e he
          · subst he
            simp [FsTree.isDir]
    · refine ⟨_, cs2, rfl, ?_, hnoidx⟩
      rw [find?_map_name cs _ (fun e => by split <;> rfl) lib, hfind]
      dsimp only [Option.map]
      rw [if_neg hl]

/-- A library listed at the top level of a well-formed tree is not named
`index.json` and offers a writable index spot. -/
lemma treeWF_goodFor (cs : List (String × FsTree)) (lib : String)
    (hwf : treeWF (.dirN cs) = true) (hlib : lib ∈ topLevelLibs cs) :
    lib ≠ "index.json" ∧ GoodFor (.dirN cs) lib := by
  unfold treeWF at hwf
  rw [Bool.and_eq_true, Bool.and_eq_true] at hwf
  obtain ⟨⟨hnd, hnoidx⟩, hall⟩ := hwf
  unfold nodupNamesT at hnd
  rw [Bool.and_eq_true, decide_eq_true_eq] at hnd
  unfold topLevelLibs at hlib
  rw [mem_jsSortBy] at hlib
  obtain ⟨e, he, hname⟩ := List.mem_map.mp hlib
  rw [List.mem_filter, Bool.and_eq_true] at he
  obtain ⟨hemem, hdir, _⟩ := he
  obtain ⟨a, b⟩ := e
  dsimp only at hname hdir
  subst hname
  cases b with
  | fileN d => exact absurd hdir (by simp [FsTree.isDir])
  | dirN cs2 =>
    have hfind := find?_eq_of_nodup cs a (.dirN cs2) hnd.1 hemem
    constructor
    · intro hc
      unfold noIndexDir at hnoidx
      rw [List.all_eq_true] at hnoidx
      have h1 := hnoidx (a, .dirN cs2) hemem
      rw [hc] at h1
      simp [FsTree.isDir] at h1
    · refine ⟨cs, cs2, rfl, hfind, ?_⟩
      rw [List.all_eq_true] at hall
      have h2 := hall (a, .dirN cs2) hemem
      simpa using h2

lemma getFile_applyWrites_written (ws : List (FPath × IndexDoc)) (t : FsTree)
    (lib : String) (hne : lib ≠ "index.json")
    (hshape : ∀ w ∈ ws, w.1 = ["index.json"] ∨ ∃ lib0, w.1 = [lib0, "index.json"])
    (hgood : GoodFor t lib)
    (hmem : ∃ d, (([lib, "index.json"] : FPath), d) ∈ ws) :
    ∃ x, getFile (applyWrites t ws) [lib, "index.json"] = some x := by
  induction ws generalizing t with
  | nil =>
    obtain ⟨d, hd⟩ := hmem
    simp at hd
  | cons w rest ih =>
    have happ : applyWrites t (w :: rest) =
        applyWrites (setFile t w.1 (.ifile w.2)) rest := rfl
    rw [happ]
    have hg2 : GoodFor (setFile t w.1 (.ifile w.2)) lib :=
      GoodFor_setFile t lib (.ifile w.2) w.1 hne
        (hshape w (List.mem_cons_self w rest)) hgood
    by_cases hrest : ∃ d, (([lib, "index.json"] : FPath), d) ∈ rest
    · exact ih _ (fun w2 hw2 => hshape w2 (List.mem_cons_of_mem w hw2)) hg2 hrest
    · obtain ⟨d, hd⟩ := hmem
      rw [List.mem_cons] at hd
      rcases hd with hd | hd
      · subst hd
        have hner : ∀ w2 ∈ rest, ([lib, "index.json"] : FPath) ≠ w2.1 := by
          intro w2 hw2 hc
          exact hrest ⟨w2.2, by rw [hc]; exact hw2⟩
        rw [getFile_applyWrites_ne rest _ _ hner]
        exact ⟨.ifile d, GoodFor_setFile_write t lib (.ifile d) hgood⟩
      · exact absurd ⟨d, hd⟩ hrest

lemma libStep_fold_mono (cmp : String → String → Int)
    (cs : List (String × FsTree)) (libs : List String)
    (acc : List (FPath × IndexDoc) × List IdxEntry × Nat)
    (w : FPath × IndexDoc) (hw : w ∈ acc.1) :
    w ∈ (libs.foldl (libStep cmp cs) acc).1 := by
  induction libs generalizing acc with
  | nil => exact hw
  | cons lib rest ih =>
    rw [List.foldl_cons]
    refine ih _ ?_
    unfold libStep
    cases hF : cs.find? (fun e => e.1 = lib) with
    | none => exact hw
    | some e =>
      dsimp only
      exact List.mem_append_left _ hw

lemma lib_write_mem_fold (cmp : String → String → Int)
    (cs : List (String × FsTree)) (lib : String) :
    ∀ (libs : List String) (acc : List (FPath × IndexDoc) × List IdxEntry × Nat),
      lib ∈ libs → (cs.find? (fun e => e.1 = lib)).isSome = true →
      ∃ d, (([lib, "index.json"] : FPath), d) ∈
        (libs.foldl (libStep cmp cs) acc).1 := by
  intro libs
  induction libs with
  | nil =>
    intro acc h hs
    simp at h
  | cons l0 rest ih =>
    intro acc hmem hsome
    rw [List.mem_cons] at hmem
    rw [List.foldl_cons]
    by_cases h0 : lib = l0
    · subst h0
      cases hF : cs.find? (fun e => e.1 = lib) with
      | none =>
        rw [hF] at hsome
        simp at hsome
      | some e =>
        have hstep : ∃ d, (([lib, "index.json"] : FPath), d) ∈
            (libStep cmp cs acc lib).1 := by
          unfold libStep
          rw [hF]
          dsimp only
          exact ⟨_, List.mem_append_right _ (List.mem_singleton.mpr rfl)⟩
        obtain ⟨dw, hdw⟩ := hstep
        exact ⟨dw, libStep_fold_mono cmp cs rest _ _ hdw⟩
    · rcases hmem with hmem | hmem
      · exact absurd hmem h0
      · exact ih _ hmem hsome

lemma rootEntries_fold_shape (cmp : String → String → Int)
    (cs : List (String × FsTree)) :
    ∀ (libs : List String) (acc : List (FPath × IndexDoc) × List IdxEntry × Nat),
      (∀ ent ∈ acc.2.1, ∃ lib, lib ∈ topLevelLibs cs ∧
        (cs.find? (fun e => e.1 = lib)).isSome = true ∧
        ent.path = [lib, "index.json"]) →
      (∀ l0 ∈ libs, l0 ∈ topLevelLibs cs) →
      ∀ ent ∈ (libs.foldl (libStep cmp cs) acc).2.1,
        ∃ lib, lib ∈ topLevelLibs cs ∧
          (cs.find? (fun e => e.1 = lib)).isSome = true ∧
          ent.path = [lib, "index.json"] := by
  intro libs
  induction libs with
  | nil => intro acc hacc hsub ent hent; exact hacc ent hent
  | cons l0 rest ih =>
    intro acc hacc hsub ent hent
    rw [List.foldl_cons] at hent
    refine ih _ ?_ (fun x hx => hsub x (List.mem_cons_of_mem l0 hx)) ent hent
    intro ent2 hent2
    unfold libStep at hent2
    cases hF : cs.find? (fun e => e.1 = l0) with
    | none =>
      rw [hF] at hent2
      exact hacc ent2 hent2
    | some e =>
      rw [hF] at hent2
      dsimp only at hent2
      rw [List.mem_append, List.mem_singleton] at hent2
      rcases hent2 with hent2 | hent2
      · exact hacc ent2 hent2
      · subst hent2
        exact ⟨l0, hsub l0 (List.mem_cons_self l0 rest), by rw [hF]; rfl, rfl⟩

lemma libWrites_fold_shape (cmp : String → String → Int)
    (cs : List (String × FsTree)) :
    ∀ (libs : List String) (acc : List (FPath × IndexDoc) × List IdxEntry × Nat),
      (∀ w ∈ acc.1, ∃ lib e, cs.find? (fun x => x.1 = lib) = some e ∧
        w.1 = ([lib, "index.json"] : FPath) ∧
        w.2.entries = (processLib cmp e.2).1) →
      ∀ w ∈ (libs.foldl (libStep cmp cs) acc).1,
        ∃ lib e, cs.find? (fun x => x.1 = lib) = some e ∧
          w.1 = ([lib, "index.json"] : FPath) ∧
          w.2.entries = (processLib cmp e.2).1 := by
  intro libs
  induction libs with
  | nil => intro acc hacc w hw; exact hacc w hw
  | cons l0 rest ih =>
    intro acc hacc w hw
    rw [List.foldl_cons] at hw
    refine ih _ ?_ w hw
    intro w2 hw2
    unfold libStep at hw2
    cases hF : cs.find? (fun e => e.1 = l0) with
    | none =>
      rw [hF] at hw2
      exact hacc w2 hw2
    | some e =>
      rw [hF] at hw2
      dsimp only at hw2
      rw [List.mem_append, List.mem_singleton] at hw2
      rcases hw2 with hw2 | hw2
      · exact hacc w2 hw2
      · subst hw2
        exact ⟨l0, e, hF, rfl, rfl⟩

lemma processLib_entry_path (cmp : String → String → Int) (t : FsTree) :
    ∀ ent ∈ (processLib cmp t).1, ∃ pf ∈ findPresetFilesT [] t, ent.path = pf := by
  intro ent hent
  unfold processLib at hent
  dsimp only at hent
  rw [mem_jsSortBy] at hent
  have hfold : ∀ (pfs : List FPath) (acc : List IdxEntry × Nat),
      (∀ x ∈ pfs, x ∈ findPresetFilesT [] t) →
      (∀ e0 ∈ acc.1, ∃ pf ∈ findPresetFilesT [] t, e0.path = pf) →
      ∀ e0 ∈ (pfs.foldl (presetFoldStep t) acc).1,
        ∃ pf ∈ findPresetFilesT [] t, e0.path = pf := by
    intro pfs
    induction pfs with
    | nil => intro acc _ hacc e0 he0; exact hacc e0 he0
    | cons p rest ih =>
      intro acc hsub hacc e0 he0
      rw [List.foldl_cons] at he0
      refine ih _ (fun x hx => hsub x (List.mem_cons_of_mem p hx)) ?_ e0 he0
      intro e1 he1
      unfold presetFoldStep at he1
      split at he1
      · rw [List.mem_append, List.mem_singleton] at he1
        rcases he1 with he1 | he1
        · exact hacc e1 he1
        · subst he1
          exact ⟨p, hsub p (List.mem_cons_self p rest), rfl⟩
      · exact hacc e1 he1
  exact hfold _ _ (fun x hx => hx) (by simp) ent hent

/-- Indexer half of C5: every entry of every written index document resolves,
relative to the index's directory, to a file of the resulting tree. -/
lemma indexer_c5 (cmp : String → String → Int) (root : FsTree)
    (hwf : treeWF root = true) :
    ∀ p d, (p, d) ∈ (indexerRun cmp root).1 →
      ∀ ent ∈ d.entries, ∃ x,
        getFile (applyWrites root (indexerRun cmp root).1)
          (p.dropLast ++ ent.path) = some x := by
  cases root with
  | fileN d0 => exact absurd hwf (by simp [treeWF])
  | dirN cs =>
    intro p d hpd ent hent
    have hshapes := indexerRun_write_shapes cmp (.dirN cs)
    rw [indexerRun_dirN] at hpd
    rw [List.mem_append, List.mem_singleton] at hpd
    rcases hpd with hpd | hpd
    · obtain ⟨lib, e, hF, hp1, hents⟩ := libWrites_fold_shape cmp cs
        (topLevelLibs cs) ([], [], 0) (by simp) (p, d) hpd
      dsimp only at hp1 hents
      rw [hents] at hent
      obtain ⟨pf, hpf, hpath⟩ := processLib_entry_path cmp e.2 ent hent
      subst hp1
      have hndT : nodupNamesT e.2 = true := by
        have hmeme := List.mem_of_find?_eq_some hF
        unfold treeWF at hwf
        rw [Bool.and_eq_true, Bool.and_eq_true] at hwf
        have hnd := hwf.1.1
        unfold nodupNamesT at hnd
        rw [Bool.and_eq_true] at hnd
        exact nodupNamesL_mem cs e hnd.2 hmeme
      obtain ⟨q0, hq0, _, dd, hget⟩ := findPresetFilesT_shape e.2 [] pf hndT hpf
      rw [List.nil_append] at hq0
      have hg0 : getFile (.dirN cs) (lib :: pf) = some dd := by
        rw [getFile_dirN_cons, hF]
        dsimp only
        rw [hq0]
        exact hget
      have hne2 : ∀ w ∈ (indexerRun cmp (.dirN cs)).1, (lib :: pf) ≠ w.1 := by
        intro w hw
        rcases hshapes w hw with hs | ⟨lib0, hs⟩
        · exact preset_path_ne_idx (lib :: pf) (lib :: q0) (by rw [hq0]; rfl)
            w.1 [] (by rw [hs]; rfl)
        · exact preset_path_ne_idx (lib :: pf) (lib :: q0) (by rw [hq0]; rfl)
            w.1 [lib0] (by rw [hs]; rfl)
      have hfinal : (([lib, "index.json"] : FPath).dropLast ++ ent.path) =
          lib :: pf := by
        rw [hpath]
        rfl
      rw [hfinal]
      refine ⟨dd, ?_⟩
      rw [getFile_applyWrites_ne _ _ _ hne2]
      exact hg0
    · simp only [Prod.mk.injEq] at hpd
      obtain ⟨hp1, hd1⟩ := hpd
      subst hp1
      subst hd1
      dsimp only at hent
      obtain ⟨lib, hlibmem, hsome, hpath⟩ := rootEntries_fold_shape cmp cs
        (topLevelLibs cs) ([], [], 0) (by simp) (fun x hx => hx) ent hent
      have hgood := treeWF_goodFor cs lib hwf hlibmem
      obtain ⟨dw, hdw⟩ := lib_write_mem_fold cmp cs lib (topLevelLibs cs)
        ([], [], 0) hlibmem hsome
      have hwmem2 : (([lib, "index.json"] : FPath), dw) ∈
          (indexerRun cmp (.dirN cs)).1 := by
        rw [indexerRun_dirN]
        exact List.mem_append_left _ hdw
      have hfin := getFile_applyWrites_written (indexerRun cmp (.dirN cs)).1
        (.dirN cs) lib hgood.1 hshapes hgood.2 ⟨dw, hwmem2⟩
      have hfinal : ((["index.json"] : FPath).dropLast ++ ent.path) =
          ([lib, "index.json"] : FPath) := by
        rw [hpath]
        rfl
      rw [hfinal]
      exact hfin

/-- C5: index path validity.  For the converter (non-dry run): every `path`
field of every entry of every index document it writes — preset paths in a
library index, `{library}/index.json` paths in the root index — resolves,
relative to the directory holding that index, to a path written during the
same run.  For the indexer (on a well-formed library tree): every `path`
field of every written library or root index entry resolves, relative to
that index's directory, to a file existing in the resulting tree. -/
theorem claim_C5_index_paths_resolve (l : Option Nat) (o : FPath)
    (src : SourceData) (cmp : String → String → Int) (root : FsTree)
    (hwf : treeWF root = true) :
    (∀ p d, FsEvent.writeE p (.indexF d) ∈
        (runConverter ⟨false, l, o⟩ src).events →
      ∀ ent ∈ d.entries,
        p.dropLast ++ ent.path ∈
          writtenPaths (runConverter ⟨false, l, o⟩ src).events) ∧
    (∀ p d, (p, d) ∈ (indexerRun cmp root).1 →
      ∀ ent ∈ d.entries, ∃ x,
        getFile (applyWrites root (indexerRun cmp root).1)
          (p.dropLast ++ ent.path) = some x) :=
  ⟨converter_c5 l o src, indexer_c5 cmp root hwf⟩

/-- Witness for C5 at a concrete converter input (one melodic instrument)
and a concrete two-library tree for the indexer. -/
theorem claim_C5_index_paths_resolve_witness :
    let cmp : String → String → Int := fun _ _ => 0
    let src : SourceData :=
      { names := some ["Piano"]
        iFiles := some [{ fname := "0000_Lib.json".toList,
                          parsed := some ⟨[{ file := some [1] }]⟩ }]
        pFiles := none }
    let pdoc : PresetDoc :=
      { name := some "Y", category := none, tags := none, gmProgram := some 3,
        node := some (.sampler (some [⟨some (40, 90)⟩])), graph := none }
    let root : FsTree :=
      .dirN [("LibC", .dirN [("Y",
               .dirN [("preset.json", .fileN (.pfile (some pdoc)))])]),
             ("node_modules", .dirN []),
             ("LibD", .dirN [])]
    treeWF root = true ∧
    ((∀ p d, FsEvent.writeE p (.indexF d) ∈
        (runConverter ⟨false, none, ["out"]⟩ src).events →
      ∀ ent ∈ d.entries,
        p.dropLast ++ ent.path ∈
          writtenPaths (runConverter ⟨false, none, ["out"]⟩ src).events) ∧
    (∀ p d, (p, d) ∈ (indexerRun cmp root).1 →
      ∀ ent ∈ d.entries, ∃ x,
        getFile (applyWrites root (indexerRun cmp root).1)
          (p.dropLast ++ ent.path) = some x)) := by
  intro cmp src pdoc root
  exact ⟨by decide,
    claim_C5_index_paths_resolve none ["out"] src cmp root (by decide)⟩
